import Mathlib

/-!
# json-zod: verification of the resolver (`fromZodJson`) and reverse conversion

Shallow embedding of the core of the `json-zod` repository:

* `lib/from-json-zod.ts` — `fromZodJson` / `parseNode`: the recursive resolver that
  turns a JSON description (`ZodJsonRoot`) into a Zod schema, with a per-call
  `definitionCache` and `z.lazy` handles for references, plus the always-throwing
  `toZodJson` of that module;
* `lib/to-json-zod.ts` — the separate, partially implemented `toZodJson`;
* `lib/types.ts` — the data shapes (`ZodJsonRoot`, `ZodJson`, `ZodJsonRef`,
  `ZodJsonFunctionSpec`, `ZodJsonParam`).

The external Zod library is out of scope for the repository (an opaque capability
provider); it is modelled by a `Surface` parameter recording exactly what the
resolver observes of it: whether a dotted path names a base constructor
(`typeof get(z, path) === 'function'`), whether a chained method exists on a given
schema instance (`typeof (schema as any)[name] === 'function'`), and whether a
code string compiles (`new Function(...)` not throwing).  Constructed schemas are
represented symbolically (`Value.zbase`, `Value.zchain`, `Value.zlazy`), so a
schema value records precisely which constructor was invoked with which arguments
and which chained calls were applied, in order.

Recursion in `parseNode` is embedded with explicit fuel (`parseNodeF`); every
recursive call consumes one unit, and the theorem `parseNodeF_total` shows fuel
`sizeOf p` always suffices, which is the shallow-embedded form of termination of
the source recursion.
-/

set_option maxHeartbeats 1000000

namespace JsonZod

/-- JSON scalar literals (`BasicJsonLiteralType` in `lib/types.ts`):
string, number, boolean or null.  Numbers are modelled as integers; no claim
depends on fractional values. -/
inductive JScalar where
  | str (s : String)
  | num (n : Int)
  | bool (b : Bool)
  | null
deriving DecidableEq, Repr

/-- The runtime shape of a `ZodJsonParam` node as classified by `parseNode` in
`lib/from-json-zod.ts`: scalar (or null), array, reference object
(`_is: "ref"`), function spec (`_is: "function"`), core `ZodJson` object
(`_schema: "json-zod"`, with its `method`, optional `params` and optional
`tail`), or a plain key-value record (shape map).  The `method` field is a
`Param` because at runtime it can hold any JSON value, which `parseNode`
checks with `typeof`. -/
inductive Param where
  | scalar (v : JScalar)
  | arr (xs : List Param)
  | ref (id : String)
  | func (code : String)
  | node (method : Param) (params : Option (List Param))
      (tail : Option (List (String × Option (List Param))))
  | record (fields : List (String × Param))
deriving Repr

/-- A tail entry of a `ZodJson` node: `[methodName, params?]`. -/
abbrev TailItem := String × Option (List Param)

mutual

/-- Syntactic size of a node, used as the fuel bound for the resolver. -/
def psize : Param → Nat
  | .scalar _ => 1
  | .arr xs => 1 + psizeList xs
  | .ref _ => 1
  | .func _ => 1
  | .node _ ps tl => 1 + psizeOpt ps + psizeTail tl
  | .record fs => 1 + psizeFields fs

/-- Size of a parameter list (one unit per element, as the resolver spends
one unit of fuel per element). -/
def psizeList : List Param → Nat
  | [] => 1
  | p :: ps => 1 + psize p + psizeList ps

/-- Size of an optional parameter list. -/
def psizeOpt : Option (List Param) → Nat
  | none => 1
  | some l => 1 + psizeList l

/-- Size of an optional tail. -/
def psizeTail : Option (List TailItem) → Nat
  | none => 1
  | some l => 1 + psizeTailList l

/-- Size of a tail list. -/
def psizeTailList : List TailItem → Nat
  | [] => 1
  | (_, ps) :: rest => 1 + psizeOpt ps + psizeTailList rest

/-- Size of a field list. -/
def psizeFields : List (String × Param) → Nat
  | [] => 1
  | (_, v) :: rest => 1 + psize v + psizeFields rest

end

/-- JavaScript `typeof` for a `Param` runtime value; objects (arrays, records,
refs, function specs, json-zod nodes) and `null` all report `"object"`. -/
def jsTypeof : Param → String
  | .scalar (.str _) => "string"
  | .scalar (.num _) => "number"
  | .scalar (.bool _) => "boolean"
  | .scalar .null => "object"
  | .arr _ => "object"
  | .ref _ => "object"
  | .func _ => "object"
  | .node _ _ _ => "object"
  | .record _ => "object"

/-- JavaScript truthiness of a `Param` value, as used by the checks
`!root.definitions[refId]` and `!definition` in `lib/from-json-zod.ts`:
`null`, `false`, `0` and `""` are falsy; every object is truthy. -/
def jsTruthy : Param → Bool
  | .scalar (.str s) => s ≠ ""
  | .scalar (.num n) => n ≠ 0
  | .scalar (.bool b) => b
  | .scalar .null => false
  | _ => true

/-- The result of resolving a node: either a plain value (scalar, array,
record, compiled function) or a symbolically represented Zod schema.
`zbase m args` is the result of `get(z, m)(...args)`, `zchain s name args` the
result of `s[name](...args)`, and `zlazy id` the `z.lazy` handle created for
the reference `id` (one such handle per id per resolve call). -/
inductive Value where
  | scalar (v : JScalar)
  | vlist (xs : List Value)
  | vrecord (fields : List (String × Value))
  | vfunc (argName : String) (code : String)
  | zbase (method : String) (args : List Value)
  | zchain (self : Value) (name : String) (args : List Value)
  | zlazy (id : String)
deriving Repr

/-- The error taxonomy of the resolver, one constructor per `throw` site in
`lib/from-json-zod.ts`. -/
inductive ResolutionError where
  /-- line 69: `Definition not found for ref` (eager existence check). -/
  | unknownDefinition (id : String)
  /-- line 76: cached definition unexpectedly undefined (defensive, dead). -/
  | cachedRefUndefined (id : String)
  /-- line 86 (inside the lazy thunk): definitions are undefined when forcing. -/
  | defsMissingOnForce (id : String)
  /-- line 90 (inside the lazy thunk): definition not found when forcing. -/
  | defMissingOnForce (id : String)
  /-- line 111: `Failed to parse function code`, carrying the source text. -/
  | functionCompileError (code : String)
  /-- line 120: `Invalid method type: expected string, got <typeof>`. -/
  | invalidMethod (typeofGot : String)
  /-- line 124: `Unknown Zod method: "z.<path>"`. -/
  | unknownMethod (path : String)
  /-- line 138: `Unknown Zod tail method: ".<name>()" on "z.<method>"`. -/
  | unknownTailMethod (tailName : String) (baseMethod : String)
deriving DecidableEq, Repr

/-- The per-call `definitionCache`, an insertion-ordered map from definition id
to the schema handle stored for it.  The source only ever inserts a fresh key
(`definitionCache.set` is reached only when `has` returned false), so insertion
is modelled as appending. -/
abbrev Cache := List (String × Value)

/-- `definitionCache.get` / `has`. -/
def Cache.find? (c : Cache) (id : String) : Option Value :=
  (List.find? (fun e => e.1 == id) c).map (·.2)

/-- What the resolver observes of the external Zod library (`z`):
`hasBase p` models `typeof get(z, p) === 'function'`, `hasTail s n` models
`typeof (s as any)[n] === 'function'` on the instance `s`, and `compileOk c`
models `new Function(...)` succeeding on the code string `c`. -/
structure Surface where
  hasBase : String → Bool
  hasTail : Value → String → Bool
  compileOk : String → Bool

/-- `ZodJsonRoot`: optional `definitions` map plus the entry `schema`. -/
structure Root where
  definitions : Option (List (String × Param))
  schema : Param

/-- Look up `root.definitions[id]`, with the source's truthiness convention:
an absent `definitions` object, an absent key, or a falsy stored value all
count as "not found" (`!root.definitions || !root.definitions[refId]`). -/
def defsFind (root : Root) (id : String) : Option Param :=
  (root.definitions.bind fun defs =>
    (List.find? (fun e => e.1 == id) defs).map (·.2)).bind
    fun d => if jsTruthy d then some d else none

/-! ## Argument-name inference for `FunctionSpec` code

The source extracts the parameter name of an embedded function with

  `code.match(/^(?:\s*async\s*)?(?:\s*function\s*)?\(?\s*([a-zA-Z0-9_$]+)\s*\)?\s*=>/)`

and falls back to `'data'` when the regex does not match.  The matcher below
implements that regex on `List Char`.  The deterministic greedy steps are
equivalent to the regex's backtracking search: every `\s*` is followed by an
element that cannot start with a whitespace character, the capture class
`[a-zA-Z0-9_$]` contains no whitespace, `(`, `)` or `=`, and the two optional
parentheses cannot be matched by any later element, so maximal munch loses no
matches.  Only the two optional groups need genuine alternatives, tried in the
regex's order: both present, async only, function only, neither. -/

/-- The capture class `[a-zA-Z0-9_$]` (ASCII letters and digits only, as in
JavaScript without the unicode flag). -/
def isIdentChar (c : Char) : Bool :=
  (97 ≤ c.toNat && c.toNat ≤ 122) || (65 ≤ c.toNat && c.toNat ≤ 90) ||
    (48 ≤ c.toNat && c.toNat ≤ 57) || c.toNat == 95 || c.toNat == 36

/-- JavaScript `\s` (the characters relevant here: ASCII whitespace plus
no-break space, line/paragraph separator and BOM). -/
def isJsWs (c : Char) : Bool :=
  c.toNat == 32 || c.toNat == 9 || c.toNat == 10 || c.toNat == 13 ||
    c.toNat == 11 || c.toNat == 12 || c.toNat == 160 || c.toNat == 8232 ||
    c.toNat == 8233 || c.toNat == 65279

/-- Drop a leading whitespace run (`\s*` with maximal munch). -/
def skipWs (s : List Char) : List Char := s.dropWhile isJsWs

/-- Match a literal character sequence at the head, returning the rest. -/
def stripLit : List Char → List Char → Option (List Char)
  | [], s => some s
  | _ :: _, [] => none
  | l :: ls, c :: cs => if c == l then stripLit ls cs else none

/-- Match one optional group body `\s*<lit>\s*`. -/
def grpWs (lit : List Char) (s : List Char) : Option (List Char) :=
  (stripLit lit (skipWs s)).map skipWs

/-- Match `\s*([a-zA-Z0-9_$]+)\s*\)?\s*=>` (the regex tail after the
optional open parenthesis), returning the captured name. -/
def capAfterParen (s1 : List Char) : Option (List Char) :=
  let s2 := skipWs s1
  let name := s2.takeWhile isIdentChar
  if name.isEmpty then none
  else
    let s3 := s2.dropWhile isIdentChar
    let s4 := skipWs s3
    let s5 := if s4.head? = some ')' then s4.tail else s4
    if (skipWs s5).take 2 = ['=', '>'] then some name else none

/-- Match the tail of the regex, `\(?\s*([a-zA-Z0-9_$]+)\s*\)?\s*=>`,
returning the captured name. -/
def tailCap (s : List Char) : Option (List Char) :=
  capAfterParen (if s.head? = some '(' then s.tail else s)

/-- One alternative of the regex: the async group if `a`, the function group
if `f`, then the common tail. -/
def tryAlt (a f : Bool) (s : List Char) : Option (List Char) := do
  let s1 ← if a then grpWs "async".data s else some s
  let s2 ← if f then grpWs "function".data s1 else some s1
  tailCap s2

/-- `code.match(regex)?.[1]`: the captured parameter name, if the regex
matches.  Alternatives are tried in the regex's backtracking order. -/
def argMatch (code : String) : Option (List Char) :=
  (tryAlt true true code.data).orElse fun _ =>
    (tryAlt true false code.data).orElse fun _ =>
      (tryAlt false true code.data).orElse fun _ =>
        tryAlt false false code.data

/-- `argMatch?.[1] ?? 'data'`: the inferred formal parameter name. -/
def inferArgName (code : String) : String :=
  match argMatch code with
  | some n => n.asString
  | none => "data"

/-! ## JavaScript `for...in` key order

The plain-mapping branch of `parseNode` iterates with `for (const key in node)`.
ECMAScript enumerates own string keys with array-index keys first, in ascending
numeric order, followed by the remaining keys in insertion order.  An array
index is a canonical numeric string whose value is below `2^32 - 1`. -/

/-- Numeric value of a digit string. -/
def digitsVal (s : List Char) : Nat :=
  s.foldl (fun acc c => acc * 10 + (c.toNat - '0'.toNat)) 0

/-- Whether a key is an ECMAScript array index: a canonical decimal string
(digits only, no leading zero except `"0"` itself) with value `< 2^32 - 1`. -/
def isArrayIndex (s : String) : Bool :=
  (!s.data.isEmpty) && s.data.all (fun c => '0' ≤ c && c ≤ '9') &&
    (s.data == ['0'] || s.data.head? != some '0') &&
    digitsVal s.data < 4294967295

/-- Stable insertion into a list sorted by ascending array-index value. -/
def insIdx (x : String × Param) : List (String × Param) → List (String × Param)
  | [] => [x]
  | y :: ys =>
    if digitsVal y.1.data ≤ digitsVal x.1.data then y :: insIdx x ys
    else x :: y :: ys

/-- Stable insertion sort by ascending array-index value. -/
def sortIdx : List (String × Param) → List (String × Param)
  | [] => []
  | x :: xs => insIdx x (sortIdx xs)

/-- The `for...in` enumeration order of an object's own keys: array-index keys
in ascending numeric order first, then the remaining keys in insertion order. -/
def jsForInOrder (fields : List (String × Param)) : List (String × Param) :=
  sortIdx (fields.filter fun e => isArrayIndex e.1) ++
    fields.filter fun e => !isArrayIndex e.1

/-! ## The resolver `parseNode`

`parseNodeF` is the body of `parseNode` from `lib/from-json-zod.ts`, with the
`definitionCache` threaded explicitly and recursion paid for with fuel: every
recursive call consumes one unit, and `none` means the fuel ran out (which, by
`parseNodeF_total` below, never happens once the fuel reaches the syntactic
size of the node — cyclic `definitions` included, because the `ref` branch
never recurses into a definition body). -/

/-- Sequencing for fuelled, cache-threaded, `Except`-failing computations:
propagate out-of-fuel and errors, otherwise continue with the value and the
updated cache. -/
def rbind {α β : Type}
    (x : Option (Except ResolutionError (α × Cache)))
    (g : α → Cache → Option (Except ResolutionError (β × Cache))) :
    Option (Except ResolutionError (β × Cache)) :=
  match x with
  | none => none
  | some (.error e) => some (.error e)
  | some (.ok (a, c)) => g a c

mutual

/-- One call of `parseNode` on a node, classified exactly as in the source:
scalar, array, `_is: "ref"`, `_is: "function"`, `_schema: "json-zod"`,
plain record. -/
def parseNodeF (S : Surface) (root : Root) :
    Nat → Param → Cache → Option (Except ResolutionError (Value × Cache))
  | 0, _, _ => none
  | _ + 1, .scalar v, c => some (.ok (.scalar v, c))
  | fuel + 1, .arr xs, c =>
    rbind (parseSeqF S root fuel xs c) fun vs c1 => some (.ok (.vlist vs, c1))
  | _ + 1, .ref id, c =>
    match defsFind root id with
    | none => some (.error (.unknownDefinition id))
    | some _ =>
      match Cache.find? c id with
      | some v => some (.ok (v, c))
      | none => some (.ok (.zlazy id, c ++ [(id, .zlazy id)]))
  | _ + 1, .func code, c =>
    if S.compileOk code then some (.ok (.vfunc (inferArgName code) code, c))
    else some (.error (.functionCompileError code))
  | fuel + 1, .node m ps tl, c =>
    match m with
    | .scalar (.str ms) =>
      if S.hasBase ms then
        rbind (match ps with
          | none => some (.ok ([], c))
          | some l => parseSeqF S root fuel l c) fun args c1 =>
          parseTailF S root fuel ms (.zbase ms args) (tl.getD []) c1
      else some (.error (.unknownMethod ms))
    | _ => some (.error (.invalidMethod (jsTypeof m)))
  | fuel + 1, .record fs, c =>
    rbind (parseFieldsF S root fuel (jsForInOrder fs) c) fun out c1 =>
      some (.ok (.vrecord out, c1))

/-- `node.map(item => parseNode(item))`: elements resolved left to right,
cache threaded through. -/
def parseSeqF (S : Surface) (root : Root) :
    Nat → List Param → Cache → Option (Except ResolutionError (List Value × Cache))
  | 0, _, _ => none
  | _ + 1, [], c => some (.ok ([], c))
  | fuel + 1, p :: ps, c =>
    rbind (parseNodeF S root fuel p c) fun v c1 =>
      rbind (parseSeqF S root fuel ps c1) fun vs c2 => some (.ok (v :: vs, c2))

/-- The plain-record loop: `result[key] = parseNode(node[key])` over the keys
in enumeration order. -/
def parseFieldsF (S : Surface) (root : Root) :
    Nat → List (String × Param) → Cache →
    Option (Except ResolutionError (List (String × Value) × Cache))
  | 0, _, _ => none
  | _ + 1, [], c => some (.ok ([], c))
  | fuel + 1, (k, v) :: rest, c =>
    rbind (parseNodeF S root fuel v c) fun w c1 =>
      rbind (parseFieldsF S root fuel rest c1) fun out c2 =>
        some (.ok ((k, w) :: out, c2))

/-- The tail loop: for each `[name, params?]` in order, look the method up on
the current instance, fail with `UnknownTailMethod` if absent, otherwise
resolve the params and replace the current instance with the call's result. -/
def parseTailF (S : Surface) (root : Root) :
    Nat → String → Value → List TailItem → Cache →
    Option (Except ResolutionError (Value × Cache))
  | 0, _, _, _, _ => none
  | _ + 1, _, s, [], c => some (.ok (s, c))
  | fuel + 1, bm, s, (name, ps) :: rest, c =>
    if S.hasTail s name then
      rbind (match ps with
        | none => some (.ok ([], c))
        | some l => parseSeqF S root fuel l c) fun args c1 =>
        parseTailF S root fuel bm (.zchain s name args) rest c1
    else some (.error (.unknownTailMethod name bm))

end

/-- `parseNode` with the always-sufficient fuel `sizeOf p`. -/
def parseNode (S : Surface) (root : Root) (p : Param) (c : Cache) :
    Option (Except ResolutionError (Value × Cache)) :=
  parseNodeF S root (psize p) p c

/-- `fromZodJson`: create an empty `definitionCache` and resolve
`root.schema`. -/
def fromZodJson (S : Surface) (root : Root) :
    Option (Except ResolutionError (Value × Cache)) :=
  parseNode S root root.schema []

/-- The body of the `z.lazy` thunk created for the reference `id`
(`lib/from-json-zod.ts`, lines 84–93): when the lazy handle is first used,
check `definitions` is present, look the definition up (with the source's
truthiness check) and resolve it with `parseNode`, in the cache state `c` the
resolve call left behind. -/
def forceDef (S : Surface) (root : Root) (fuel : Nat) (id : String) (c : Cache) :
    Option (Except ResolutionError (Value × Cache)) :=
  match root.definitions with
  | none => some (.error (.defsMissingOnForce id))
  | some defs =>
    match (List.find? (fun e => e.1 == id) defs).map (·.2) with
    | none => some (.error (.defMissingOnForce id))
    | some d =>
      if jsTruthy d then parseNodeF S root fuel d c
      else some (.error (.defMissingOnForce id))

/-! ## The two reverse conversions `toZodJson` -/

/-- `toZodJson` from `lib/from-json-zod.ts` (lines 174–178): unconditionally
throws, whatever schema it is given. -/
def toZodJsonCore (_schema : Value) : Except String Root :=
  .error "[json-zod] toZodJson 功能尚未完全实现，这是一个复杂的反向工程过程"

/-- The runtime structure of a Zod schema as inspected by `lib/to-json-zod.ts`
through `_def.typeName`: the six supported cases plus any other type name. -/
inductive ZodS where
  | zstring
  | znumber
  | zboolean
  | zarray (elem : ZodS)
  | zobject (shape : List (String × ZodS))
  | zoptional (inner : ZodS)
  | zother (typeName : String)
deriving Repr

mutual

/-- Syntactic size of a Zod schema value, the fuel bound for `convertSchemaF`. -/
def zsize : ZodS → Nat
  | .zstring => 1
  | .znumber => 1
  | .zboolean => 1
  | .zarray e => 1 + zsize e
  | .zobject shape => 1 + zsizeShape shape
  | .zoptional i => 1 + zsize i
  | .zother _ => 1

/-- Size of an object shape. -/
def zsizeShape : List (String × ZodS) → Nat
  | [] => 1
  | (_, v) :: rest => 1 + zsize v + zsizeShape rest

end

mutual

/-- `convertSchema` from `lib/to-json-zod.ts`: dispatch on `typeName`,
recursing into array element types, object shapes and optional inner types;
`ZodOptional` appends `['optional']` to the inner result's tail; any other
type name throws `Unsupported Zod type`. -/
def convertSchemaF : Nat → ZodS → Except String Param
  | 0, _ => .error "[json-zod] out of fuel"
  | _ + 1, .zstring => .ok (.node (.scalar (.str "string")) none none)
  | _ + 1, .znumber => .ok (.node (.scalar (.str "number")) none none)
  | _ + 1, .zboolean => .ok (.node (.scalar (.str "boolean")) none none)
  | fuel + 1, .zarray elem => do
    let e ← convertSchemaF fuel elem
    .ok (.node (.scalar (.str "array")) (some [e]) none)
  | fuel + 1, .zobject shape => do
    let fs ← convertShapeF fuel shape
    .ok (.node (.scalar (.str "object")) (some [.record fs]) none)
  | fuel + 1, .zoptional inner => do
    let p ← convertSchemaF fuel inner
    match p with
    | .node m ps tl => .ok (.node m ps (some (tl.getD [] ++ [("optional", none)])))
    | other => .ok other
  | _ + 1, .zother typeName =>
    .error ("[json-zod] toZodJson: Unsupported Zod type: " ++ typeName)

/-- The `Object.entries(shape)` loop of the `ZodObject` case. -/
def convertShapeF : Nat → List (String × ZodS) → Except String (List (String × Param))
  | 0, _ => .error "[json-zod] out of fuel"
  | _ + 1, [] => .ok []
  | fuel + 1, (k, v) :: rest => do
    let p ← convertSchemaF fuel v
    let out ← convertShapeF fuel rest
    .ok ((k, p) :: out)

end

/-- `toZodJson` from `lib/to-json-zod.ts`: convert the schema and wrap it as a
root document with no `definitions`. -/
def toZodJsonLib (s : ZodS) : Except String Root :=
  (convertSchemaF (zsize s) s).map fun p => ⟨none, p⟩

/-! ## Size lemmas -/

theorem psize_pos (p : Param) : 1 ≤ psize p := by
  cases p <;> simp [psize] <;> omega

theorem psizeList_pos (l : List Param) : 1 ≤ psizeList l := by
  cases l <;> simp [psizeList] <;> omega

theorem psizeOpt_pos (o : Option (List Param)) : 1 ≤ psizeOpt o := by
  cases o <;> simp [psizeOpt]

theorem psizeTail_pos (o : Option (List TailItem)) : 1 ≤ psizeTail o := by
  cases o <;> simp [psizeTail]

theorem psizeTailList_pos (l : List TailItem) : 1 ≤ psizeTailList l := by
  cases l with
  | nil => simp [psizeTailList]
  | cons x rest => obtain ⟨n, ps⟩ := x; simp [psizeTailList]; omega

theorem psizeFields_pos (l : List (String × Param)) : 1 ≤ psizeFields l := by
  cases l with
  | nil => simp [psizeFields]
  | cons x rest => obtain ⟨k, v⟩ := x; simp [psizeFields]; omega

theorem psizeFields_append (a b : List (String × Param)) :
    psizeFields (a ++ b) + 1 = psizeFields a + psizeFields b := by
  induction a with
  | nil => simp [psizeFields]; omega
  | cons x xs ih => obtain ⟨k, v⟩ := x; simp [psizeFields]; omega

theorem psizeFields_insIdx (x : String × Param) (l : List (String × Param)) :
    psizeFields (insIdx x l) = 1 + psize x.2 + psizeFields l := by
  induction l with
  | nil => obtain ⟨k, v⟩ := x; simp [insIdx, psizeFields]
  | cons y ys ih =>
    obtain ⟨k, v⟩ := x
    obtain ⟨k2, v2⟩ := y
    simp only [insIdx]
    split
    · simp [psizeFields] at ih ⊢; omega
    · simp [psizeFields]

theorem psizeFields_sortIdx (l : List (String × Param)) :
    psizeFields (sortIdx l) = psizeFields l := by
  induction l with
  | nil => simp [sortIdx]
  | cons x xs ih =>
    obtain ⟨k, v⟩ := x
    simp [sortIdx, psizeFields_insIdx, psizeFields, ih]

theorem psizeFields_filter_partition (q : (String × Param) → Bool)
    (l : List (String × Param)) :
    psizeFields (l.filter q) + psizeFields (l.filter fun e => !q e) =
      psizeFields l + 1 := by
  induction l with
  | nil => simp [psizeFields]
  | cons x xs ih =>
    obtain ⟨k, v⟩ := x
    by_cases hq : q (k, v) <;> simp [List.filter, hq, psizeFields] <;> omega

theorem psizeFields_jsForInOrder (fs : List (String × Param)) :
    psizeFields (jsForInOrder fs) = psizeFields fs := by
  unfold jsForInOrder
  have h1 := psizeFields_append (sortIdx (fs.filter fun e => isArrayIndex e.1))
    (fs.filter fun e => !isArrayIndex e.1)
  have h2 := psizeFields_sortIdx (fs.filter fun e => isArrayIndex e.1)
  have h3 := psizeFields_filter_partition (fun e => isArrayIndex e.1) fs
  omega

/-! ## Totality: the resolver never runs out of fuel at its syntactic size.

This is the shallow-embedded form of termination of `parseNode`: the recursion
depth is bounded by the syntactic size of the node being resolved alone —
independently of `definitions`, so cyclic or self-referential definitions
cannot make it loop, because the `ref` branch returns a lazy handle instead of
recursing into the referenced definition. -/

theorem isSome_rbind {α β : Type}
    (x : Option (Except ResolutionError (α × Cache)))
    (g : α → Cache → Option (Except ResolutionError (β × Cache)))
    (hx : x.isSome = true)
    (hg : ∀ a c, x = some (.ok (a, c)) → (g a c).isSome = true) :
    (rbind x g).isSome = true := by
  match x, hx with
  | some (.error e), _ => simp [rbind]
  | some (.ok (a, c)), _ => simpa [rbind] using hg a c rfl

theorem parse_total (S : Surface) (root : Root) (fuel : Nat) :
    (∀ p c, psize p ≤ fuel → (parseNodeF S root fuel p c).isSome = true) ∧
    (∀ ps c, psizeList ps ≤ fuel → (parseSeqF S root fuel ps c).isSome = true) ∧
    (∀ gs c, psizeFields gs ≤ fuel →
      (parseFieldsF S root fuel gs c).isSome = true) ∧
    (∀ bm s tl c, psizeTailList tl ≤ fuel →
      (parseTailF S root fuel bm s tl c).isSome = true) := by
  induction fuel with
  | zero =>
    refine ⟨fun p c hp => ?_, fun ps c hp => ?_, fun gs c hp => ?_,
      fun bm s tl c hp => ?_⟩
    · have := psize_pos p; omega
    · have := psizeList_pos ps; omega
    · have := psizeFields_pos gs; omega
    · have := psizeTailList_pos tl; omega
  | succ f ih =>
    obtain ⟨ihN, ihS, ihF, ihT⟩ := ih
    refine ⟨fun p c hp => ?_, fun ps c hp => ?_, fun gs c hp => ?_,
      fun bm s tl c hp => ?_⟩
    · cases p with
      | scalar v => simp [parseNodeF]
      | arr xs =>
        simp only [parseNodeF]
        refine isSome_rbind _ _ (ihS xs c ?_) (fun a c1 _ => by simp)
        simp [psize] at hp; omega
      | ref id =>
        simp only [parseNodeF]
        rcases defsFind root id with _ | d
        · simp
        · rcases Cache.find? c id with _ | v <;> simp
      | func code =>
        simp only [parseNodeF]
        split <;> simp
      | node m ps tl =>
        have hps : psizeOpt ps + psizeTail tl ≤ f := by
          simp [psize] at hp; omega
        cases m with
        | scalar v =>
          cases v with
          | str ms =>
            simp only [parseNodeF]
            split
            · refine isSome_rbind _ _ ?_ (fun args c1 _ => ?_)
              · cases ps with
                | none => simp
                | some l =>
                  refine ihS l c ?_
                  have := psizeTail_pos tl
                  simp [psizeOpt] at hps; omega
              · refine ihT ms (.zbase ms args) (tl.getD []) c1 ?_
                cases tl with
                | none =>
                  have := psizeOpt_pos ps
                  simp [psizeTail, psizeTailList]; omega
                | some l =>
                  have := psizeOpt_pos ps
                  simp [psizeTail] at hps; simp; omega
            · simp
          | num n => simp [parseNodeF]
          | bool b => simp [parseNodeF]
          | null => simp [parseNodeF]
        | arr xs => simp [parseNodeF]
        | ref id => simp [parseNodeF]
        | func code => simp [parseNodeF]
        | node m2 ps2 tl2 => simp [parseNodeF]
        | record fs2 => simp [parseNodeF]
      | record fs =>
        simp only [parseNodeF]
        refine isSome_rbind _ _ (ihF (jsForInOrder fs) c ?_) (fun a c1 _ => by simp)
        rw [psizeFields_jsForInOrder]
        simp [psize] at hp; omega
    · cases ps with
      | nil => simp [parseSeqF]
      | cons p rest =>
        have h1 : psize p ≤ f := by
          have := psizeList_pos rest; simp [psizeList] at hp; omega
        have h2 : psizeList rest ≤ f := by
          have := psize_pos p; simp [psizeList] at hp; omega
        simp only [parseSeqF]
        refine isSome_rbind _ _ (ihN p c h1) (fun v c1 _ => ?_)
        exact isSome_rbind _ _ (ihS rest c1 h2) (fun vs c2 _ => by simp)
    · cases gs with
      | nil => simp [parseFieldsF]
      | cons x rest =>
        obtain ⟨k, v⟩ := x
        have h1 : psize v ≤ f := by
          have := psizeFields_pos rest; simp [psizeFields] at hp; omega
        have h2 : psizeFields rest ≤ f := by
          have := psize_pos v; simp [psizeFields] at hp; omega
        simp only [parseFieldsF]
        refine isSome_rbind _ _ (ihN v c h1) (fun w c1 _ => ?_)
        exact isSome_rbind _ _ (ihF rest c1 h2) (fun out c2 _ => by simp)
    · cases tl with
      | nil => simp [parseTailF]
      | cons it rest =>
        obtain ⟨name, ps⟩ := it
        have h2 : psizeTailList rest ≤ f := by
          have := psizeOpt_pos ps; simp [psizeTailList] at hp; omega
        simp only [parseTailF]
        split
        · refine isSome_rbind _ _ ?_ (fun args c1 _ => ihT bm _ rest c1 h2)
          cases ps with
          | none => simp
          | some l =>
            refine ihS l c ?_
            have := psizeTailList_pos rest
            simp [psizeTailList, psizeOpt] at hp; omega
        · simp

/-! ## Cache monotonicity: the `definitionCache` only ever grows.

The source's only write to the cache is `definitionCache.set(refId, lazySchema)`,
reached when `has(refId)` just returned false, so no entry is ever replaced or
removed within one resolve call; here that surfaces as every successful call
returning a cache that extends its input cache on the right. -/

/-- The output cache extends the input cache. -/
def CacheExt (c c' : Cache) : Prop := ∃ ext, c' = c ++ ext

theorem CacheExt.refl (c : Cache) : CacheExt c c := ⟨[], by simp⟩

theorem CacheExt.trans {a b c : Cache} (h1 : CacheExt a b) (h2 : CacheExt b c) :
    CacheExt a c := by
  obtain ⟨e1, rfl⟩ := h1
  obtain ⟨e2, rfl⟩ := h2
  exact ⟨e1 ++ e2, by simp⟩

theorem find?_append_of_some {α : Type} (q : α → Bool) (l1 l2 : List α) (a : α)
    (h : List.find? q l1 = some a) : List.find? q (l1 ++ l2) = some a := by
  simp [h]

theorem CacheExt.find?_eq {c c' : Cache} {id : String} {h : Value}
    (he : CacheExt c c') (hf : Cache.find? c id = some h) :
    Cache.find? c' id = some h := by
  obtain ⟨ext, rfl⟩ := he
  unfold Cache.find? at hf ⊢
  obtain ⟨e, hfe, hmap⟩ := Option.map_eq_some'.mp hf
  rw [find?_append_of_some _ _ _ _ hfe]
  simpa using hmap

theorem rbind_ok {α β : Type}
    {x : Option (Except ResolutionError (α × Cache))}
    {g : α → Cache → Option (Except ResolutionError (β × Cache))}
    {b : β} {c2 : Cache}
    (h : rbind x g = some (.ok (b, c2))) :
    ∃ a c1, x = some (.ok (a, c1)) ∧ g a c1 = some (.ok (b, c2)) := by
  match x with
  | none => simp [rbind] at h
  | some (.error e) => simp [rbind] at h
  | some (.ok (a, c)) => exact ⟨a, c, rfl, h⟩

theorem parse_cacheExt (S : Surface) (root : Root) (fuel : Nat) :
    (∀ p c v c', parseNodeF S root fuel p c = some (.ok (v, c')) →
      CacheExt c c') ∧
    (∀ ps c vs c', parseSeqF S root fuel ps c = some (.ok (vs, c')) →
      CacheExt c c') ∧
    (∀ gs c out c', parseFieldsF S root fuel gs c = some (.ok (out, c')) →
      CacheExt c c') ∧
    (∀ bm s tl c v c', parseTailF S root fuel bm s tl c = some (.ok (v, c')) →
      CacheExt c c') := by
  induction fuel with
  | zero =>
    refine ⟨fun p c v c' h => ?_, fun ps c vs c' h => ?_,
      fun gs c out c' h => ?_, fun bm s tl c v c' h => ?_⟩ <;>
      simp [parseNodeF, parseSeqF, parseFieldsF, parseTailF] at h
  | succ f ih =>
    obtain ⟨ihN, ihS, ihF, ihT⟩ := ih
    refine ⟨fun p c v c' h => ?_, fun ps c vs c' h => ?_,
      fun gs c out c' h => ?_, fun bm s tl c v c' h => ?_⟩
    · cases p with
      | scalar w =>
        simp [parseNodeF] at h
        exact h.2 ▸ CacheExt.refl c
      | arr xs =>
        simp only [parseNodeF] at h
        obtain ⟨a, c1, hx, hg⟩ := rbind_ok h
        simp at hg
        exact hg.2 ▸ ihS xs c a c1 hx
      | ref id =>
        simp only [parseNodeF] at h
        rcases hdef : defsFind root id with _ | d <;> rw [hdef] at h
        · simp at h
        · rcases hc : Cache.find? c id with _ | w <;> rw [hc] at h <;>
            simp at h
          · exact h.2 ▸ ⟨[(id, .zlazy id)], rfl⟩
          · exact h.2 ▸ CacheExt.refl c
      | func code =>
        simp only [parseNodeF] at h
        split at h <;> simp at h
        exact h.2 ▸ CacheExt.refl c
      | node m ps tl =>
        cases m with
        | scalar w =>
          cases w with
          | str ms =>
            simp only [parseNodeF] at h
            split at h
            · obtain ⟨args, c1, hx, hg⟩ := rbind_ok h
              have h1 : CacheExt c c1 := by
                cases ps with
                | none => simp at hx; exact hx.2 ▸ CacheExt.refl c
                | some l => exact ihS l c args c1 hx
              exact h1.trans (ihT ms (.zbase ms args) (tl.getD []) c1 v c' hg)
            · simp at h
          | num n => simp [parseNodeF] at h
          | bool b => simp [parseNodeF] at h
          | null => simp [parseNodeF] at h
        | arr xs => simp [parseNodeF] at h
        | ref id => simp [parseNodeF] at h
        | func code => simp [parseNodeF] at h
        | node m2 ps2 tl2 => simp [parseNodeF] at h
        | record fs2 => simp [parseNodeF] at h
      | record fs =>
        simp only [parseNodeF] at h
        obtain ⟨a, c1, hx, hg⟩ := rbind_ok h
        simp at hg
        exact hg.2 ▸ ihF (jsForInOrder fs) c a c1 hx
    · cases ps with
      | nil =>
        simp [parseSeqF] at h
        exact h.2 ▸ CacheExt.refl c
      | cons p rest =>
        simp only [parseSeqF] at h
        obtain ⟨v1, c1, hx, hg⟩ := rbind_ok h
        obtain ⟨v2, c2, hx2, hg2⟩ := rbind_ok hg
        simp at hg2
        exact hg2.2 ▸ (ihN p c v1 c1 hx).trans (ihS rest c1 v2 c2 hx2)
    · cases gs with
      | nil =>
        simp [parseFieldsF] at h
        exact h.2 ▸ CacheExt.refl c
      | cons x rest =>
        obtain ⟨k, w⟩ := x
        simp only [parseFieldsF] at h
        obtain ⟨v1, c1, hx, hg⟩ := rbind_ok h
        obtain ⟨v2, c2, hx2, hg2⟩ := rbind_ok hg
        simp at hg2
        exact hg2.2 ▸ (ihN w c v1 c1 hx).trans (ihF rest c1 v2 c2 hx2)
    · cases tl with
      | nil =>
        simp [parseTailF] at h
        exact h.2 ▸ CacheExt.refl c
      | cons it rest =>
        obtain ⟨name, ps⟩ := it
        simp only [parseTailF] at h
        split at h
        · obtain ⟨args, c1, hx, hg⟩ := rbind_ok h
          have h1 : CacheExt c c1 := by
            cases ps with
            | none => simp at hx; exact hx.2 ▸ CacheExt.refl c
            | some l => exact ihS l c args c1 hx
          exact h1.trans (ihT bm (.zchain s name args) rest c1 v c' hg)
        · simp at h

theorem parseNode_isSome (S : Surface) (root : Root) (p : Param) (c : Cache) :
    (parseNode S root p c).isSome = true :=
  (parse_total S root (psize p)).1 p c le_rfl

theorem fromZodJson_isSome (S : Surface) (root : Root) :
    (fromZodJson S root).isSome = true :=
  parseNode_isSome S root root.schema []

/-! ## Concrete instances used by witnesses and counterexamples -/

/-- A library surface on which every lookup succeeds and all code compiles. -/
def surfAll : Surface := ⟨fun _ => true, fun _ _ => true, fun _ => true⟩

/-- A library surface with no constructor at the empty dotted path, as with the
real `z` object (`get(z, '')` is `z['']`, which is `undefined`). -/
def surfZ : Surface := ⟨fun m => m != "", fun _ _ => true, fun _ => true⟩

/-- A root document with no definitions and a trivial schema. -/
def rootNil : Root := ⟨none, .scalar .null⟩

/-! ## C8 -/

/-- C8: for every scalar param (string, number, boolean) and for null,
resolution is the identity: the scalar branch of `parseNode` returns the value
itself with the cache untouched, and a list of scalars (params or tail params
are resolved with the very same dispatch) resolves to the same list of
scalars. -/
theorem scalar_resolution_identity :
    (∀ (S : Surface) (root : Root) (fuel : Nat) (v : JScalar) (c : Cache),
      parseNodeF S root (fuel + 1) (.scalar v) c = some (.ok (.scalar v, c))) ∧
    (∀ (S : Surface) (root : Root) (vs : List JScalar) (fuel : Nat) (c : Cache),
      vs.length < fuel →
      parseSeqF S root fuel (vs.map Param.scalar) c =
        some (.ok (vs.map Value.scalar, c))) := by
  constructor
  · intro S root fuel v c
    simp [parseNodeF]
  · intro S root vs
    induction vs with
    | nil =>
      intro fuel c h
      match fuel, h with
      | f + 1, _ => simp [parseSeqF]
    | cons v rest ih =>
      intro fuel c h
      cases fuel with
      | zero => omega
      | succ f =>
        have hf : rest.length < f := by simp at h; omega
        cases f with
        | zero => omega
        | succ f2 =>
          simp only [List.map_cons, parseSeqF, parseNodeF, rbind]
          rw [ih (f2 + 1) c hf]

/-- Witness for C8 at concrete inputs. -/
theorem scalar_resolution_identity_witness :
    parseNodeF surfAll rootNil 1 (.scalar (.num 7)) [] =
      some (.ok (.scalar (.num 7), [])) ∧
    ([JScalar.str "a", JScalar.bool true].length < 3 ∧
      parseSeqF surfAll rootNil 3
          ([JScalar.str "a", JScalar.bool true].map Param.scalar) [] =
        some (.ok ([JScalar.str "a", JScalar.bool true].map Value.scalar, []))) :=
  ⟨scalar_resolution_identity.1 surfAll rootNil 0 (.num 7) [],
    by decide,
    scalar_resolution_identity.2 surfAll rootNil
      [JScalar.str "a", JScalar.bool true] 3 [] (by decide)⟩

/-! ## C4 -/

/-- C4: a reference whose id is not a (truthy) key of `definitions` — in
particular when `definitions` is absent entirely — fails at the very node with
`UnknownDefinition` naming the missing id, whatever the cache state, and at
top level `fromZodJson` on such a schema returns that error, never a
validator. -/
theorem unknown_reference_fails_with_unknownDefinition :
    (∀ (S : Surface) (root : Root) (id : String) (c : Cache) (fuel : Nat),
      defsFind root id = none →
      parseNodeF S root (fuel + 1) (.ref id) c =
        some (.error (.unknownDefinition id))) ∧
    (∀ root : Root, root.definitions = none → ∀ id, defsFind root id = none) ∧
    (∀ (S : Surface) (defs : Option (List (String × Param))) (id : String),
      defsFind ⟨defs, .ref id⟩ id = none →
      fromZodJson S ⟨defs, .ref id⟩ =
        some (.error (.unknownDefinition id))) := by
  refine ⟨fun S root id c fuel h => ?_, fun root h id => ?_,
    fun S defs id h => ?_⟩
  · simp [parseNodeF, h]
  · simp [defsFind, h]
  · simp [fromZodJson, parseNode, psize, parseNodeF, h]

/-- Witness for C4: a reference to `Missing` with `definitions` absent. -/
theorem unknown_reference_fails_with_unknownDefinition_witness :
    fromZodJson surfAll ⟨none, .ref "Missing"⟩ =
      some (.error (.unknownDefinition "Missing")) :=
  unknown_reference_fails_with_unknownDefinition.2.2 surfAll none "Missing"
    (by simp [defsFind])

/-! ## C5 -/

/-- C5 counterexample: a node whose `method` is the empty string passes the
`typeof` check (it is a string) and reaches the constructor lookup, which
fails with `UnknownMethod` — not `InvalidMethod` as the claim states. -/
theorem empty_method_raises_unknownMethod_cex :
    parseNode surfZ rootNil (.node (.scalar (.str "")) none none) [] =
      some (.error (.unknownMethod "")) ∧
    ResolutionError.unknownMethod "" ≠ ResolutionError.invalidMethod "string" := by
  constructor
  · rfl
  · decide

/-- Whether the `method` field is a string, as `typeof m === 'string'`. -/
def isStringMethod : Param → Bool
  | .scalar (.str _) => true
  | _ => false

/-- C5 (amended): a node whose `method` is not a string fails with
`InvalidMethod` reporting `typeof` of the value received, before any
constructor lookup — the result is the same for every library surface; a
`method` that is the empty string instead passes the type check and fails at
constructor lookup with `UnknownMethod ""` whenever the surface has no
constructor at the empty path (true of the real library). -/
theorem method_type_check_and_empty_string_lookup :
    (∀ (S : Surface) (root : Root) (c : Cache) (fuel : Nat) (m : Param)
      (ps : Option (List Param)) (tl : Option (List TailItem)),
      isStringMethod m = false →
      parseNodeF S root (fuel + 1) (.node m ps tl) c =
        some (.error (.invalidMethod (jsTypeof m)))) ∧
    (∀ (S : Surface) (root : Root) (c : Cache) (fuel : Nat)
      (ps : Option (List Param)) (tl : Option (List TailItem)),
      S.hasBase "" = false →
      parseNodeF S root (fuel + 1) (.node (.scalar (.str "")) ps tl) c =
        some (.error (.unknownMethod ""))) := by
  constructor
  · intro S root c fuel m ps tl h
    cases m with
    | scalar v => cases v <;> simp_all [isStringMethod, parseNodeF, jsTypeof]
    | arr xs => simp [parseNodeF, jsTypeof]
    | ref id => simp [parseNodeF, jsTypeof]
    | func code => simp [parseNodeF, jsTypeof]
    | node m2 ps2 tl2 => simp [parseNodeF, jsTypeof]
    | record fs => simp [parseNodeF, jsTypeof]
  · intro S root c fuel ps tl h
    simp [parseNodeF, h]

/-- Witness for C5 (amended) at concrete inputs: a numeric method and the
empty-string method. -/
theorem method_type_check_and_empty_string_lookup_witness :
    parseNodeF surfAll rootNil 1 (.node (.scalar (.num 123)) none none) [] =
      some (.error (.invalidMethod "number")) ∧
    parseNodeF surfZ rootNil 1 (.node (.scalar (.str "")) none none) [] =
      some (.error (.unknownMethod "")) :=
  ⟨by
    have := method_type_check_and_empty_string_lookup.1 surfAll rootNil [] 0
      (.scalar (.num 123)) none none (by decide)
    simpa [jsTypeof] using this,
    method_type_check_and_empty_string_lookup.2 surfZ rootNil [] 0 none none
      (by decide)⟩

/-! ## C10 -/

/-- C10 counterexample: the `toZodJson` exported by `lib/to-json-zod.ts` —
part of the library's public interface via `lib/index.ts` — returns a
description document for a string schema instead of throwing. -/
theorem public_toZodJson_returns_document_cex :
    toZodJsonLib .zstring =
      .ok ⟨none, .node (.scalar (.str "string")) none none⟩ := rfl

/-- C10 (amended): the `toZodJson` in `lib/from-json-zod.ts` unconditionally
throws for every input schema; but the `toZodJson` in `lib/to-json-zod.ts`
implements a partial reverse conversion: it returns a description document for
the supported schema types (string, number, boolean, array, object, optional)
and throws `Unsupported Zod type` for every other type name. -/
theorem toZodJson_core_throws_lib_partial :
    (∀ v : Value, toZodJsonCore v =
      .error "[json-zod] toZodJson 功能尚未完全实现，这是一个复杂的反向工程过程") ∧
    toZodJsonLib .zstring =
      .ok ⟨none, .node (.scalar (.str "string")) none none⟩ ∧
    toZodJsonLib .znumber =
      .ok ⟨none, .node (.scalar (.str "number")) none none⟩ ∧
    toZodJsonLib .zboolean =
      .ok ⟨none, .node (.scalar (.str "boolean")) none none⟩ ∧
    toZodJsonLib (.zarray .zstring) =
      .ok ⟨none, .node (.scalar (.str "array"))
        (some [.node (.scalar (.str "string")) none none]) none⟩ ∧
    toZodJsonLib (.zobject [("a", .znumber)]) =
      .ok ⟨none, .node (.scalar (.str "object"))
        (some [.record [("a", .node (.scalar (.str "number")) none none)]]) none⟩ ∧
    toZodJsonLib (.zoptional .zstring) =
      .ok ⟨none, .node (.scalar (.str "string")) none
        (some [("optional", none)])⟩ ∧
    (∀ t, toZodJsonLib (.zother t) =
      .error ("[json-zod] toZodJson: Unsupported Zod type: " ++ t)) := by
  refine ⟨fun v => rfl, rfl, rfl, rfl, rfl, rfl, rfl, fun t => rfl⟩

/-! ## C6 -/

/-- C6: within a single resolve call each reference id is materialized at most
once: (i) every cache entry present before any `parseNode` step is still
present, unchanged, afterwards (the cache is never replaced or shrunk);
(ii) an encounter of an id already in the cache returns exactly the cached
handle and leaves the cache untouched; (iii) the first encounter of a defined
id registers exactly one handle, `zlazy id`, for it. -/
theorem reference_cache_at_most_one_handle :
    (∀ (S : Surface) (root : Root) (fuel : Nat) (p : Param) (c : Cache)
      (v : Value) (c' : Cache) (id : String) (h : Value),
      parseNodeF S root fuel p c = some (.ok (v, c')) →
      Cache.find? c id = some h → Cache.find? c' id = some h) ∧
    (∀ (S : Surface) (root : Root) (id : String) (d : Param) (c : Cache)
      (h : Value) (fuel : Nat),
      defsFind root id = some d → Cache.find? c id = some h →
      parseNodeF S root (fuel + 1) (.ref id) c = some (.ok (h, c))) ∧
    (∀ (S : Surface) (root : Root) (id : String) (d : Param) (c : Cache)
      (fuel : Nat),
      defsFind root id = some d → Cache.find? c id = none →
      parseNodeF S root (fuel + 1) (.ref id) c =
        some (.ok (.zlazy id, c ++ [(id, .zlazy id)]))) := by
  refine ⟨fun S root fuel p c v c' id h hp hf => ?_,
    fun S root id d c h fuel hdef hc => ?_,
    fun S root id d c fuel hdef hc => ?_⟩
  · exact ((parse_cacheExt S root fuel).1 p c v c' hp).find?_eq hf
  · simp [parseNodeF, hdef, hc]
  · simp [parseNodeF, hdef, hc]

/-- A root with two string-typed definitions, used by the C6 witness. -/
def rootAB : Root :=
  ⟨some [("A", .node (.scalar (.str "string")) none none),
         ("B", .node (.scalar (.str "number")) none none)], .ref "A"⟩

/-- Witness for C6 at concrete inputs: resolving a reference to `B` preserves
the cached handle for `A`; a second encounter of `A` returns the cached handle
unchanged; a first encounter of `A` registers `zlazy A`. -/
theorem reference_cache_at_most_one_handle_witness :
    Cache.find? [("A", .zlazy "A"), ("B", .zlazy "B")] "A" =
      some (.zlazy "A") ∧
    parseNodeF surfAll rootAB 1 (.ref "A") [("A", .zlazy "A")] =
      some (.ok (.zlazy "A", [("A", .zlazy "A")])) ∧
    parseNodeF surfAll rootAB 1 (.ref "A") [] =
      some (.ok (.zlazy "A", [("A", .zlazy "A")])) :=
  ⟨reference_cache_at_most_one_handle.1 surfAll rootAB 1 (.ref "B")
      [("A", .zlazy "A")] (.zlazy "B") [("A", .zlazy "A"), ("B", .zlazy "B")]
      "A" (.zlazy "A") rfl rfl,
    reference_cache_at_most_one_handle.2.1 surfAll rootAB "A"
      (.node (.scalar (.str "string")) none none) [("A", .zlazy "A")]
      (.zlazy "A") 0 rfl rfl,
    reference_cache_at_most_one_handle.2.2 surfAll rootAB "A"
      (.node (.scalar (.str "string")) none none) [] 0 rfl rfl⟩

/-! ## C1 -/

/-- C1: resolution terminates on every root document, cyclic definitions
included: (i) `fromZodJson` always yields a result at fuel equal to the
schema's syntactic size (the recursion never needs more, whatever
`definitions` contains, because a reference never resolves its target's body
eagerly); (ii) forcing the lazy thunk of any definition terminates within the
body's own syntactic size, even when the body references its own id;
(iii) the first encounter of a defined reference id registers the lazy handle
in the cache and returns it without resolving the definition body — the
result does not mention the body at all — so a reference met while the body
is later forced finds the already-registered handle (C6's cache-hit
equation). -/
theorem cyclic_definitions_resolve_terminates :
    (∀ (S : Surface) (root : Root), (fromZodJson S root).isSome = true) ∧
    (∀ (S : Surface) (root : Root) (id : String) (d : Param) (c : Cache),
      defsFind root id = some d →
      (forceDef S root (psize d) id c).isSome = true) ∧
    (∀ (S : Surface) (root : Root) (id : String) (d : Param) (c : Cache)
      (fuel : Nat),
      defsFind root id = some d → Cache.find? c id = none →
      parseNodeF S root (fuel + 1) (.ref id) c =
        some (.ok (.zlazy id, c ++ [(id, .zlazy id)]))) := by
  refine ⟨fun S root => fromZodJson_isSome S root,
    fun S root id d c h => ?_, fun S root id d c fuel hdef hc => ?_⟩
  · simp only [defsFind, Option.bind_eq_some, Option.map_eq_some'] at h
    obtain ⟨d0, ⟨defs, hdefs, e, hfe, hmap⟩, hif⟩ := h
    have ht : jsTruthy d0 = true := by
      by_cases ht : jsTruthy d0
      · exact ht
      · simp [ht] at hif
    have hd : d0 = d := by simpa [ht] using hif
    subst hd
    simp only [forceDef, hdefs, hfe, Option.map_some', hmap, ht, if_true]
    exact (parse_total S root (psize d0)).1 d0 c le_rfl
  · simp [parseNodeF, hdef, hc]

/-- The self-referential `Category` definition from the spec's testable
properties: an object with a `name` string and a `subcategories` array whose
element type is a reference to `Category` itself. -/
def catDef : Param :=
  .node (.scalar (.str "object"))
    (some [.record
      [("name", .node (.scalar (.str "string")) none none),
       ("subcategories",
        .node (.scalar (.str "array")) (some [.ref "Category"]) none)]])
    none

/-- A root whose schema is a reference to the cyclic `Category` definition. -/
def catRoot : Root := ⟨some [("Category", catDef)], .ref "Category"⟩

/-- Witness for C1 on the cyclic `Category` document: resolution terminates,
forcing the definition terminates, and the first encounter registers the lazy
handle; the extra equations (proved by evaluation) show the concrete results:
resolve returns the handle, and forcing it resolves the body with the inner
self-reference receiving the registered handle. -/
theorem cyclic_definitions_resolve_terminates_witness :
    (fromZodJson surfAll catRoot).isSome = true ∧
    (forceDef surfAll catRoot (psize catDef) "Category"
      [("Category", .zlazy "Category")]).isSome = true ∧
    parseNodeF surfAll catRoot 1 (.ref "Category") [] =
      some (.ok (.zlazy "Category", [("Category", .zlazy "Category")])) ∧
    fromZodJson surfAll catRoot =
      some (.ok (.zlazy "Category", [("Category", .zlazy "Category")])) ∧
    forceDef surfAll catRoot (psize catDef) "Category"
        [("Category", .zlazy "Category")] =
      some (.ok (.zbase "object"
        [.vrecord [("name", .zbase "string" []),
                   ("subcategories", .zbase "array" [.zlazy "Category"])]],
        [("Category", .zlazy "Category")])) :=
  ⟨cyclic_definitions_resolve_terminates.1 surfAll catRoot,
    cyclic_definitions_resolve_terminates.2.1 surfAll catRoot "Category"
      catDef [("Category", .zlazy "Category")] rfl,
    cyclic_definitions_resolve_terminates.2.2 surfAll catRoot "Category"
      catDef [] 0 rfl rfl,
    rfl, rfl⟩

/-! ## C2 -/

/-- A root whose only definition has a malformed body (numeric `method`),
reachable only through the reference in `schema`. -/
def rootBad : Root :=
  ⟨some [("Bad", .node (.scalar (.num 123)) none none)], .ref "Bad"⟩

/-- C2 counterexample: on a document whose definition body is malformed but
reached only through a reference, the top-level resolve call does NOT fail —
it returns a validator (the lazy handle); the malformed body only errors when
the lazy thunk is later forced. -/
theorem resolve_succeeds_despite_malformed_deferred_body_cex :
    fromZodJson surfAll rootBad =
      some (.ok (.zlazy "Bad", [("Bad", .zlazy "Bad")])) ∧
    forceDef surfAll rootBad 1 "Bad" [("Bad", .zlazy "Bad")] =
      some (.error (.invalidMethod "number")) := ⟨rfl, rfl⟩

/-- C2 (amended): `fromZodJson` always returns either a `ResolutionError` or a
fully constructed validator, and an error raised at any node the call actually
traverses unwinds the whole call (shown for array elements and constructor
params); but definition bodies reached only through references are not
traversed during the call — the result of resolving a reference depends only
on whether its id is defined, not on the definition's body — so malformed
content there surfaces only when the lazy handle is forced. -/
theorem resolve_errors_unwind_with_deferred_reference_bodies :
    (∀ (S : Surface) (root : Root),
      (∃ e, fromZodJson S root = some (.error e)) ∨
      (∃ v c, fromZodJson S root = some (.ok (v, c)))) ∧
    (∀ (S : Surface) (r1 r2 : Root) (id : String) (c : Cache) (fuel : Nat),
      (defsFind r1 id).isSome = (defsFind r2 id).isSome →
      parseNodeF S r1 (fuel + 1) (.ref id) c =
        parseNodeF S r2 (fuel + 1) (.ref id) c) ∧
    (∀ (S : Surface) (root : Root) (fuel : Nat) (p : Param)
      (rest : List Param) (c : Cache) (e : ResolutionError),
      parseNodeF S root fuel p c = some (.error e) →
      parseNodeF S root (fuel + 2) (.arr (p :: rest)) c = some (.error e)) ∧
    (∀ (S : Surface) (root : Root) (fuel : Nat) (ms : String) (p : Param)
      (rest : List Param) (tl : Option (List TailItem)) (c : Cache)
      (e : ResolutionError),
      S.hasBase ms = true →
      parseNodeF S root fuel p c = some (.error e) →
      parseNodeF S root (fuel + 2)
          (.node (.scalar (.str ms)) (some (p :: rest)) tl) c =
        some (.error e)) := by
  refine ⟨fun S root => ?_, fun S r1 r2 id c fuel hiso => ?_,
    fun S root fuel p rest c e h => ?_,
    fun S root fuel ms p rest tl c e hb h => ?_⟩
  · have hs := fromZodJson_isSome S root
    cases hr : fromZodJson S root with
    | none => rw [hr] at hs; simp at hs
    | some r =>
      cases r with
      | error e => exact Or.inl ⟨e, rfl⟩
      | ok vc => obtain ⟨v, c⟩ := vc; exact Or.inr ⟨v, c, rfl⟩
  · cases h1 : defsFind r1 id <;> cases h2 : defsFind r2 id <;>
      rw [h1, h2] at hiso <;> simp at hiso <;>
      simp [parseNodeF, h1, h2]
  · simp [parseNodeF, parseSeqF, rbind, h]
  · simp [parseNodeF, parseSeqF, rbind, h, hb]

/-- The same document as `rootBad` with a well-formed body for the same id. -/
def rootBad2 : Root :=
  ⟨some [("Bad", .node (.scalar (.str "string")) none none)], .ref "Bad"⟩

/-- Witness for C2 (amended) at concrete inputs: totality on `rootBad`;
body-independence between `rootBad` and `rootBad2`; an unknown-definition
error below an array and below constructor params unwinds the whole call. -/
theorem resolve_errors_unwind_with_deferred_reference_bodies_witness :
    ((∃ e, fromZodJson surfAll rootBad = some (.error e)) ∨
      (∃ v c, fromZodJson surfAll rootBad = some (.ok (v, c)))) ∧
    parseNodeF surfAll rootBad 2 (.ref "Bad") [] =
      parseNodeF surfAll rootBad2 2 (.ref "Bad") [] ∧
    parseNodeF surfAll rootNil 3 (.arr [.ref "Missing"]) [] =
      some (.error (.unknownDefinition "Missing")) ∧
    parseNodeF surfAll rootNil 3
        (.node (.scalar (.str "object")) (some [.ref "Missing"]) none) [] =
      some (.error (.unknownDefinition "Missing")) :=
  ⟨resolve_errors_unwind_with_deferred_reference_bodies.1 surfAll rootBad,
    resolve_errors_unwind_with_deferred_reference_bodies.2.1 surfAll rootBad
      rootBad2 "Bad" [] 1 rfl,
    resolve_errors_unwind_with_deferred_reference_bodies.2.2.1 surfAll rootNil
      1 (.ref "Missing") [] [] (.unknownDefinition "Missing") rfl,
    resolve_errors_unwind_with_deferred_reference_bodies.2.2.2 surfAll rootNil
      1 "object" (.ref "Missing") [] none [] (.unknownDefinition "Missing")
      rfl rfl⟩

/-! ## C7 -/

theorem rbind_assoc {α β γ : Type}
    (x : Option (Except ResolutionError (α × Cache)))
    (g : α → Cache → Option (Except ResolutionError (β × Cache)))
    (k : β → Cache → Option (Except ResolutionError (γ × Cache))) :
    rbind (rbind x g) k = rbind x fun a c => rbind (g a c) k := by
  match x with
  | none => rfl
  | some (.error e) => rfl
  | some (.ok (a, c)) => rfl

theorem rbind_congr {α β : Type}
    {x : Option (Except ResolutionError (α × Cache))}
    {g g' : α → Cache → Option (Except ResolutionError (β × Cache))}
    (h : ∀ a c, g a c = g' a c) : rbind x g = rbind x g' := by
  match x with
  | none => rfl
  | some (.error e) => rfl
  | some (.ok (a, c)) => exact h a c

/-- The record loop is element-wise the same dispatch as a parameter sequence:
it resolves exactly the values (in the given order, cache threaded the same
way) and zips the untouched keys back onto the results. -/
theorem parseFieldsF_eq_seq (S : Surface) (root : Root) :
    ∀ (gs : List (String × Param)) (fuel : Nat) (c : Cache),
      parseFieldsF S root fuel gs c =
        rbind (parseSeqF S root fuel (gs.map Prod.snd) c)
          fun vs c1 => some (.ok ((gs.map Prod.fst).zip vs, c1)) := by
  intro gs
  induction gs with
  | nil =>
    intro fuel c
    cases fuel with
    | zero => rfl
    | succ f => simp [parseFieldsF, parseSeqF, rbind]
  | cons x rest ih =>
    intro fuel c
    obtain ⟨k, v⟩ := x
    cases fuel with
    | zero => rfl
    | succ f =>
      simp only [parseFieldsF, parseSeqF, List.map_cons, rbind_assoc]
      refine rbind_congr fun w c1 => ?_
      rw [ih f c1, rbind_assoc]
      refine rbind_congr fun ws c2 => ?_
      simp [rbind]

/-- A successful parameter sequence has one result per input element. -/
theorem parseSeqF_length (S : Surface) (root : Root) :
    ∀ (ps : List Param) (fuel : Nat) (c : Cache) (vs : List Value) (c' : Cache),
      parseSeqF S root fuel ps c = some (.ok (vs, c')) →
      vs.length = ps.length := by
  intro ps
  induction ps with
  | nil =>
    intro fuel c vs c' h
    cases fuel with
    | zero => simp [parseSeqF] at h
    | succ f => simp [parseSeqF] at h; simp [h.1]
  | cons p rest ih =>
    intro fuel c vs c' h
    cases fuel with
    | zero => simp [parseSeqF] at h
    | succ f =>
      simp only [parseSeqF] at h
      obtain ⟨v1, c1, hx, hg⟩ := rbind_ok h
      obtain ⟨v2, c2, hx2, hg2⟩ := rbind_ok hg
      simp at hg2
      rw [← hg2.1]
      simp [ih f c1 v2 c2 hx2]

theorem insIdx_perm (x : String × Param) (l : List (String × Param)) :
    (insIdx x l).Perm (x :: l) := by
  induction l with
  | nil => simp [insIdx]
  | cons y ys ih =>
    simp only [insIdx]
    split
    · exact (ih.cons y).trans (List.Perm.swap x y ys)
    · exact List.Perm.refl _

theorem sortIdx_perm (l : List (String × Param)) : (sortIdx l).Perm l := by
  induction l with
  | nil => simp [sortIdx]
  | cons x xs ih => exact (insIdx_perm x (sortIdx xs)).trans (ih.cons x)

theorem filter_partition_perm (q : (String × Param) → Bool)
    (l : List (String × Param)) :
    (l.filter q ++ l.filter fun e => !q e).Perm l := by
  induction l with
  | nil => simp
  | cons x xs ih =>
    by_cases hq : q x
    · simpa [List.filter, hq] using ih.cons x
    · simp only [List.filter, hq]
      exact List.perm_middle.trans (ih.cons x)

theorem jsForInOrder_perm (fs : List (String × Param)) :
    (jsForInOrder fs).Perm fs := by
  unfold jsForInOrder
  exact ((sortIdx_perm _).append_right _).trans (filter_partition_perm _ fs)

theorem jsForInOrder_eq_self (fs : List (String × Param))
    (h : ∀ e ∈ fs, isArrayIndex e.1 = false) : jsForInOrder fs = fs := by
  unfold jsForInOrder
  have h1 : fs.filter (fun e => isArrayIndex e.1) = [] := by
    rw [List.filter_eq_nil]
    intro a ha
    simp [h a ha]
  have h2 : (fs.filter fun e => !isArrayIndex e.1) = fs := by
    rw [List.filter_eq_self]
    intro a ha
    simp [h a ha]
  rw [h1, h2]
  rfl

/-- C7 counterexample: integer-like keys are enumerated by `for...in` in
ascending numeric order, not in insertion order; the mapping built from keys
`"2", "1"` comes back with keys `"1", "2"`. -/
theorem record_integer_like_keys_reordered_cex :
    parseNodeF surfAll rootNil 5
        (.record [("2", .scalar .null), ("1", .scalar .null)]) [] =
      some (.ok (.vrecord [("1", .scalar .null), ("2", .scalar .null)], [])) ∧
    ([("1", Value.scalar .null), ("2", Value.scalar .null)].map Prod.fst ≠
      [("2", Param.scalar .null), ("1", Param.scalar .null)].map Prod.fst) := by
  constructor
  · rfl
  · decide

/-- The record branch of `parseNode`, rephrased: resolve the values of the
fields (in enumeration order) as a parameter sequence and zip the keys back. -/
theorem parseNodeF_record_eq (S : Surface) (root : Root) (fuel : Nat)
    (fs : List (String × Param)) (c : Cache) :
    parseNodeF S root (fuel + 1) (.record fs) c =
      rbind (parseSeqF S root fuel ((jsForInOrder fs).map Prod.snd) c)
        fun vs c1 =>
          some (.ok (.vrecord (((jsForInOrder fs).map Prod.fst).zip vs), c1)) := by
  simp only [parseNodeF]
  rw [parseFieldsF_eq_seq, rbind_assoc]
  refine rbind_congr fun vs c1 => ?_
  simp [rbind]

/-- C7 (amended): the plain-mapping branch resolves exactly the values, by the
same dispatch rule as parameter sequences, and zips the unchanged keys back
on; the output keys are the input keys in JavaScript own-key enumeration
order — array-index-like keys first in ascending numeric order, then the rest
in insertion order — which is a permutation of the input keys, and equals the
insertion order exactly when no key is an array-index string. -/
theorem record_resolution_keys_and_js_enumeration_order :
    (∀ (S : Surface) (root : Root) (fuel : Nat) (fs : List (String × Param))
      (c : Cache),
      parseNodeF S root (fuel + 1) (.record fs) c =
        rbind (parseSeqF S root fuel ((jsForInOrder fs).map Prod.snd) c)
          fun vs c1 =>
            some (.ok (.vrecord (((jsForInOrder fs).map Prod.fst).zip vs), c1))) ∧
    (∀ (S : Surface) (root : Root) (fuel : Nat) (fs : List (String × Param))
      (c : Cache) (out : List (String × Value)) (c' : Cache),
      parseNodeF S root (fuel + 1) (.record fs) c =
        some (.ok (.vrecord out, c')) →
      out.map Prod.fst = (jsForInOrder fs).map Prod.fst ∧
      (out.map Prod.fst).Perm (fs.map Prod.fst)) ∧
    (∀ fs : List (String × Param),
      (∀ e ∈ fs, isArrayIndex e.1 = false) → jsForInOrder fs = fs) := by
  refine ⟨parseNodeF_record_eq, fun S root fuel fs c out c' h => ?_,
    jsForInOrder_eq_self⟩
  rw [parseNodeF_record_eq] at h
  obtain ⟨vs, c1, hseq, hcont⟩ := rbind_ok h
  simp only [Option.some.injEq, Except.ok.injEq, Prod.mk.injEq,
    Value.vrecord.injEq] at hcont
  obtain ⟨hout, hc⟩ := hcont
  have hlen : ((jsForInOrder fs).map Prod.fst).length ≤ vs.length := by
    have := parseSeqF_length S root ((jsForInOrder fs).map Prod.snd) fuel c
      vs c1 hseq
    simp [this]
  have hkeys : out.map Prod.fst = (jsForInOrder fs).map Prod.fst := by
    rw [← hout]
    exact List.map_fst_zip _ _ hlen
  refine ⟨hkeys, ?_⟩
  rw [hkeys]
  exact (jsForInOrder_perm fs).map Prod.fst

/-- Witness for C7 (amended) at concrete inputs: the rephrased record branch
on a one-field record; key preservation on a two-field record with non-index
keys; order preservation when no key is an array index. -/
theorem record_resolution_keys_and_js_enumeration_order_witness :
    parseNodeF surfAll rootNil 2 (.record [("a", .scalar .null)]) [] =
      rbind (parseSeqF surfAll rootNil 1
          ((jsForInOrder [("a", .scalar .null)]).map Prod.snd) [])
        (fun vs c1 =>
          some (.ok (.vrecord
            (((jsForInOrder [("a", .scalar .null)]).map Prod.fst).zip vs),
            c1))) ∧
    ([("b", Value.scalar (.num 1)), ("a", Value.scalar (.num 2))].map Prod.fst =
        (jsForInOrder [("b", .scalar (.num 1)),
          ("a", .scalar (.num 2))]).map Prod.fst ∧
      ([("b", Value.scalar (.num 1)),
        ("a", Value.scalar (.num 2))].map Prod.fst).Perm
        ([("b", Param.scalar (.num 1)),
          ("a", Param.scalar (.num 2))].map Prod.fst)) ∧
    jsForInOrder [("b", .scalar (.num 1)), ("a", .scalar (.num 2))] =
      [("b", .scalar (.num 1)), ("a", .scalar (.num 2))] :=
  ⟨record_resolution_keys_and_js_enumeration_order.1 surfAll rootNil 1
      [("a", .scalar .null)] [],
    record_resolution_keys_and_js_enumeration_order.2.1 surfAll rootNil 3
      [("b", .scalar (.num 1)), ("a", .scalar (.num 2))] []
      [("b", .scalar (.num 1)), ("a", .scalar (.num 2))] [] rfl,
    record_resolution_keys_and_js_enumeration_order.2.2
      [("b", .scalar (.num 1)), ("a", .scalar (.num 2))]
      (by decide)⟩

/-! ## C3 -/

/-- The names of the chained calls recorded in a symbolic schema value, in
application order (innermost first). -/
def chainNames : Value → List String
  | .zchain s n _ => chainNames s ++ [n]
  | _ => []

/-- JavaScript truthiness of a scalar. -/
def jsTruthyS : JScalar → Bool
  | .str t => t ≠ ""
  | .num n => n ≠ 0
  | .bool b => b
  | .null => false

/-- Modelled from the spec: the runtime behavior of the external validator
library (Zod, outside `src/`) for the operations the spec's testable
properties use — a `string` base validator, `refine` with an embedded
predicate, `transform` with an embedded mapping — with embedded code
interpreted by the argument `interp`.  Used only to exhibit that reversing an
asymmetric tail changes the resulting validator's observable behavior. -/
def runV (interp : String → JScalar → Option JScalar) : Value → JScalar → Option JScalar
  | .zbase "string" _, v =>
    match v with
    | .str t => some (.str t)
    | _ => none
  | .zchain s "refine" (.vfunc _ code :: _), v =>
    (runV interp s v).bind fun v1 =>
      (interp code v1).bind fun t => if jsTruthyS t then some v1 else none
  | .zchain s "transform" (.vfunc _ code :: _), v =>
    (runV interp s v).bind fun v1 => interp code v1
  | _, _ => none

/-- A concrete interpreter for two embedded code strings: `"u"` appends `"!"`
to a string, `"p"` accepts strings of length at most 5. -/
def interp0 : String → JScalar → Option JScalar := fun code v =>
  if code = "u" then
    match v with
    | .str t => some (.str (t ++ "!"))
    | _ => none
  else if code = "p" then
    match v with
    | .str t => some (.bool (decide (t.length ≤ 5)))
    | _ => none
  else none

/-- A string node chaining `transform` then `refine`. -/
def nodeTR : Param :=
  .node (.scalar (.str "string")) none
    (some [("transform", some [.func "u"]), ("refine", some [.func "p"])])

/-- The same node with the tail reversed: `refine` then `transform`. -/
def nodeRT : Param :=
  .node (.scalar (.str "string")) none
    (some [("refine", some [.func "p"]), ("transform", some [.func "u"])])

/-- The validator `nodeTR` resolves to. -/
def valTR : Value :=
  .zchain (.zchain (.zbase "string" []) "transform" [.vfunc "data" "u"])
    "refine" [.vfunc "data" "p"]

/-- The validator `nodeRT` resolves to. -/
def valRT : Value :=
  .zchain (.zchain (.zbase "string" []) "refine" [.vfunc "data" "p"])
    "transform" [.vfunc "data" "u"]

/-- C3: tail operations are applied strictly sequentially in declared order:
(i) on success, the chained-call names recorded in the resolved validator are
exactly the base value's chain followed by the tail entries' names in the
declared order — each step wraps the result of all prior steps, never the
original instance; (ii) on a concrete asymmetric tail (`transform` then
`refine`), reversing the tail produces a different validator; (iii) under the
modelled library behavior the two validators behave differently on the same
input (`"hello"` is rejected by one order and accepted and transformed by the
other). -/
theorem tail_operations_applied_in_declared_order :
    (∀ (S : Surface) (root : Root) (bm : String) (tl : List TailItem)
      (fuel : Nat) (s : Value) (c : Cache) (v : Value) (c' : Cache),
      parseTailF S root fuel bm s tl c = some (.ok (v, c')) →
      chainNames v = chainNames s ++ tl.map Prod.fst) ∧
    (parseNode surfAll rootNil nodeTR [] = some (.ok (valTR, [])) ∧
      parseNode surfAll rootNil nodeRT [] = some (.ok (valRT, [])) ∧
      valTR ≠ valRT) ∧
    (runV interp0 valTR (.str "hello") = none ∧
      runV interp0 valRT (.str "hello") = some (.str "hello!")) := by
  refine ⟨fun S root bm tl => ?_, ⟨rfl, rfl, ?_⟩, rfl, rfl⟩
  · induction tl with
    | nil =>
      intro fuel s c v c' h
      cases fuel with
      | zero => simp [parseTailF] at h
      | succ f =>
        simp [parseTailF] at h
        simp [← h.1]
    | cons it rest ih =>
      intro fuel s c v c' h
      obtain ⟨name, ps⟩ := it
      cases fuel with
      | zero => simp [parseTailF] at h
      | succ f =>
        simp only [parseTailF] at h
        split at h
        · obtain ⟨args, c1, hx, hg⟩ := rbind_ok h
          have := ih f (.zchain s name args) c1 v c' hg
          simp only [this, chainNames, List.map_cons]
          simp
        · simp at h
  · intro h
    simp only [valTR, valRT, Value.zchain.injEq] at h
    exact absurd h.2.1 (by decide)

/-- Witness for C3 applying the order theorem at a concrete tail
(`min` then `max` on a string base). -/
theorem tail_operations_applied_in_declared_order_witness :
    chainNames (.zchain (.zchain (.zbase "string" [])
        "min" [.scalar (.num 3)]) "max" [.scalar (.num 10)]) =
      chainNames (.zbase "string" []) ++
        ([("min", some [Param.scalar (.num 3)]),
          ("max", some [Param.scalar (.num 10)])].map Prod.fst) :=
  tail_operations_applied_in_declared_order.1 surfAll rootNil "string"
    [("min", some [.scalar (.num 3)]), ("max", some [.scalar (.num 10)])]
    9 (.zbase "string" []) []
    (.zchain (.zchain (.zbase "string" []) "min" [.scalar (.num 3)])
      "max" [.scalar (.num 10)]) [] rfl

/-! ## C9: the arg-name regex, declaratively

`RegexDecomp code n` states that `code` matches the source regex
`^(?:\s*async\s*)?(?:\s*function\s*)?\(?\s*([a-zA-Z0-9_$]+)\s*\)?\s*=>`
with `n` as the capture: there are optional `async` / `function` markers (each
with surrounding whitespace), an optional open parenthesis, whitespace, a
nonempty run of identifier characters (the capture), whitespace, an optional
close parenthesis, whitespace, and the arrow.  This is the claim's "leading
parameter pattern" spelled out; the matcher `argMatch` is proved sound and
complete for it. -/

/-- A run of JavaScript whitespace. -/
def WsRun (w : List Char) : Prop := ∀ c ∈ w, isJsWs c = true

/-- A nonempty run of identifier characters. -/
def IdentRun (n : List Char) : Prop := n ≠ [] ∧ ∀ c ∈ n, isIdentChar c = true

/-- An optional piece of the pattern. -/
def optPart (b : Bool) (l : List Char) : List Char := if b then l else []

theorem WsRun_nil : WsRun [] := fun c hc => by simp at hc

theorem optPart_true (l : List Char) : optPart true l = l := rfl

theorem optPart_false (l : List Char) : optPart false l = [] := rfl

/-- The declarative reading of the source regex (anchored at the start,
arbitrary remainder `rest` after the arrow). -/
def RegexDecomp (code : List Char) (n : List Char) : Prop :=
  ∃ (a f pL pR : Bool) (w1 w2 w3 w4 w5 w6 w7 rest : List Char),
    WsRun w1 ∧ WsRun w2 ∧ WsRun w3 ∧ WsRun w4 ∧ WsRun w5 ∧ WsRun w6 ∧
    WsRun w7 ∧ IdentRun n ∧
    code = optPart a (w1 ++ "async".data ++ w2) ++
      (optPart f (w3 ++ "function".data ++ w4) ++
        (optPart pL ['('] ++
          (w5 ++ (n ++ (w6 ++ (optPart pR [')'] ++
            (w7 ++ '=' :: '>' :: rest)))))))

theorem ident_not_ws {c : Char} (h : isIdentChar c = true) : isJsWs c = false := by
  simp [isIdentChar] at h
  simp [isJsWs]
  omega

theorem ws_not_ident {c : Char} (h : isJsWs c = true) : isIdentChar c = false := by
  simp [isJsWs] at h
  simp [isIdentChar]
  omega

theorem ws_ne {c d : Char} (h : isJsWs c = true) (hd : isJsWs d = false) :
    c ≠ d := by
  intro he
  rw [he, hd] at h
  cases h

theorem ident_ne {c d : Char} (h : isIdentChar c = true)
    (hd : isIdentChar d = false) : c ≠ d := by
  intro he
  rw [he, hd] at h
  cases h

theorem skipWs_cons_ws {c : Char} {t : List Char} (h : isJsWs c = true) :
    skipWs (c :: t) = skipWs t := by
  simp [skipWs, List.dropWhile, h]

theorem skipWs_cons_not {c : Char} {t : List Char} (h : isJsWs c = false) :
    skipWs (c :: t) = c :: t := by
  simp [skipWs, List.dropWhile, h]

theorem skipWs_ws_append {w t : List Char} (hw : WsRun w) :
    skipWs (w ++ t) = skipWs t := by
  induction w with
  | nil => simp
  | cons c cs ih =>
    rw [List.cons_append, skipWs_cons_ws (hw c (by simp))]
    exact ih fun d hd => hw d (by simp [hd])

theorem skipWs_not_head {t : List Char}
    (h : ∀ c, t.head? = some c → isJsWs c = false) : skipWs t = t := by
  cases t with
  | nil => rfl
  | cons c cs => exact skipWs_cons_not (h c rfl)

theorem skipWs_decomp (s : List Char) :
    WsRun (s.takeWhile isJsWs) ∧ s = s.takeWhile isJsWs ++ skipWs s :=
  ⟨fun c hc => List.mem_takeWhile_imp hc,
    (List.takeWhile_append_dropWhile isJsWs s).symm⟩

theorem stripLit_self (lit t : List Char) : stripLit lit (lit ++ t) = some t := by
  induction lit with
  | nil => rfl
  | cons l ls ih => simp [stripLit, ih]

theorem stripLit_eq (lit : List Char) :
    ∀ u v, stripLit lit u = some v → u = lit ++ v := by
  induction lit with
  | nil =>
    intro u v h
    simp [stripLit] at h
    simp [h]
  | cons l ls ih =>
    intro u v h
    cases u with
    | nil => simp [stripLit] at h
    | cons c cs =>
      simp only [stripLit] at h
      split at h
      · next hc =>
        have := ih cs v h
        simp at hc
        simp [hc, this]
      · cases h

theorem takeWhile_all_append {p : Char → Bool} {n r : List Char}
    (hn : ∀ c ∈ n, p c = true) (hr : ∀ c, r.head? = some c → p c = false) :
    (n ++ r).takeWhile p = n ∧ (n ++ r).dropWhile p = r := by
  induction n with
  | nil =>
    cases r with
    | nil => simp
    | cons c cs => simp [List.takeWhile, List.dropWhile, hr c rfl]
  | cons c cs ih =>
    have hc := hn c (by simp)
    have hrec := ih fun d hd => hn d (by simp [hd])
    constructor
    · simp [List.takeWhile, hc, hrec.1]
    · simp [List.dropWhile, hc, hrec.2]

theorem grpWs_sound {lit s t : List Char} (h : grpWs lit s = some t) :
    ∃ w1 w2, WsRun w1 ∧ WsRun w2 ∧ s = w1 ++ (lit ++ (w2 ++ t)) := by
  simp only [grpWs, Option.map_eq_some'] at h
  obtain ⟨u, hstrip, hskip⟩ := h
  obtain ⟨hw1, hs⟩ := skipWs_decomp s
  obtain ⟨hw2, hu⟩ := skipWs_decomp u
  have h3 : skipWs s = lit ++ u := stripLit_eq lit _ _ hstrip
  have h4 : u = u.takeWhile isJsWs ++ t := by rw [← hskip]; exact hu
  exact ⟨s.takeWhile isJsWs, u.takeWhile isJsWs, hw1, hw2, by
    conv_lhs => rw [hs, h3, h4]⟩

theorem grpWs_complete (lit : List Char) (l0 : Char) (ls : List Char)
    {w1 w2 t : List Char}
    (hlit : lit = l0 :: ls) (hl0 : isJsWs l0 = false)
    (h1 : WsRun w1) (h2 : WsRun w2) :
    grpWs lit (w1 ++ (lit ++ (w2 ++ t))) = some (skipWs t) := by
  subst hlit
  simp only [grpWs]
  rw [skipWs_ws_append h1, List.cons_append, skipWs_cons_not hl0,
    ← List.cons_append, stripLit_self]
  simp [skipWs_ws_append h2]

theorem capAfterParen_complete {w5 n w6 w7 rest : List Char} {pR : Bool}
    (h5 : WsRun w5) (hn : IdentRun n) (h6 : WsRun w6) (h7 : WsRun w7) :
    capAfterParen
        (w5 ++ (n ++ (w6 ++ (optPart pR [')'] ++ (w7 ++ '=' :: '>' :: rest))))) =
      some n := by
  obtain ⟨hne, hmem⟩ := hn
  obtain ⟨c0, n', rfl⟩ : ∃ c0 n', n = c0 :: n' := by
    cases n with
    | nil => exact absurd rfl hne
    | cons c0 n' => exact ⟨c0, n', rfl⟩
  have hheadR : ∀ c,
      (w6 ++ (optPart pR [')'] ++ (w7 ++ '=' :: '>' :: rest))).head? = some c →
      isIdentChar c = false := by
    intro c hc
    cases w6 with
    | cons d ds =>
      simp [optPart] at hc
      subst hc
      exact ws_not_ident (h6 d (by simp))
    | nil =>
      cases pR with
      | true =>
        simp [optPart] at hc
        subst hc
        decide
      | false =>
        cases w7 with
        | cons d ds =>
          simp [optPart] at hc
          subst hc
          exact ws_not_ident (h7 d (by simp))
        | nil =>
          simp [optPart] at hc
          subst hc
          decide
  have hsk : skipWs
      ((w5 : List Char) ++
        (c0 :: n' ++ (w6 ++ (optPart pR [')'] ++ (w7 ++ '=' :: '>' :: rest))))) =
      c0 :: n' ++ (w6 ++ (optPart pR [')'] ++ (w7 ++ '=' :: '>' :: rest))) := by
    rw [skipWs_ws_append h5]
    refine skipWs_not_head fun c hc => ?_
    simp at hc
    subst hc
    exact ident_not_ws (hmem c0 (by simp))
  have htd := takeWhile_all_append (p := isIdentChar) (n := c0 :: n')
    (r := w6 ++ (optPart pR [')'] ++ (w7 ++ '=' :: '>' :: rest))) hmem hheadR
  simp only [capAfterParen]
  rw [hsk, htd.1, htd.2]
  simp only [List.isEmpty_cons, Bool.false_eq_true, if_false]
  cases pR with
  | true =>
    have hR : skipWs (w6 ++ (optPart true [')'] ++ (w7 ++ '=' :: '>' :: rest))) =
        ')' :: (w7 ++ '=' :: '>' :: rest) := by
      rw [skipWs_ws_append h6]
      simp only [optPart, if_pos rfl, List.singleton_append]
      exact skipWs_cons_not (by decide)
    rw [hR]
    have hc : ((')' :: (w7 ++ '=' :: '>' :: rest)).head? = some ')') := rfl
    have hinner : (if ((')' :: (w7 ++ '=' :: '>' :: rest)).head? = some ')') then
          (')' :: (w7 ++ '=' :: '>' :: rest)).tail
        else ')' :: (w7 ++ '=' :: '>' :: rest)) = w7 ++ '=' :: '>' :: rest := by
      rw [if_pos hc]
      rfl
    rw [hinner]
    have h2 : skipWs (w7 ++ '=' :: '>' :: rest) = '=' :: '>' :: rest := by
      rw [skipWs_ws_append h7]
      exact skipWs_cons_not (by decide)
    rw [h2]
    simp
  | false =>
    have hR : skipWs (w6 ++ (optPart false [')'] ++ (w7 ++ '=' :: '>' :: rest))) =
        '=' :: '>' :: rest := by
      rw [skipWs_ws_append h6]
      simp only [optPart, Bool.false_eq_true, if_false, List.nil_append]
      rw [skipWs_ws_append h7]
      exact skipWs_cons_not (by decide)
    rw [hR]
    have hinner : (if (('=' :: '>' :: rest).head? = some ')') then
          ('=' :: '>' :: rest).tail
        else '=' :: '>' :: rest) = '=' :: '>' :: rest := by
      rw [if_neg (show ¬(('=' :: '>' :: rest).head? = some ')') from
        fun hcc => absurd (Option.some.inj hcc) (by decide))]
    rw [hinner]
    rw [skipWs_cons_not (by decide)]
    simp

theorem capAfterParen_sound {s1 n : List Char} (h : capAfterParen s1 = some n) :
    ∃ (pR : Bool) (w5 w6 w7 rest : List Char),
      WsRun w5 ∧ WsRun w6 ∧ WsRun w7 ∧ IdentRun n ∧
      s1 = w5 ++ (n ++ (w6 ++ (optPart pR [')'] ++ (w7 ++ '=' :: '>' :: rest)))) := by
  simp only [capAfterParen] at h
  by_cases hne : ((skipWs s1).takeWhile isIdentChar).isEmpty = true
  · rw [if_pos hne] at h
    simp at h
  · rw [if_neg hne] at h
    have hidn : IdentRun ((skipWs s1).takeWhile isIdentChar) := by
      refine ⟨?_, fun c hc => List.mem_takeWhile_imp hc⟩
      intro hcon
      rw [hcon] at hne
      simp at hne
    obtain ⟨hw5, hs1⟩ := skipWs_decomp s1
    have hs2 : skipWs s1 =
        (skipWs s1).takeWhile isIdentChar ++
          (skipWs s1).dropWhile isIdentChar :=
      (List.takeWhile_append_dropWhile isIdentChar (skipWs s1)).symm
    obtain ⟨hw6, hs3⟩ := skipWs_decomp ((skipWs s1).dropWhile isIdentChar)
    by_cases hp : (skipWs ((skipWs s1).dropWhile isIdentChar)).head? = some ')'
    · obtain ⟨s5, hs4⟩ : ∃ s5,
          skipWs ((skipWs s1).dropWhile isIdentChar) = ')' :: s5 := by
        cases hc : skipWs ((skipWs s1).dropWhile isIdentChar) with
        | nil => rw [hc] at hp; simp at hp
        | cons c cs =>
          rw [hc] at hp
          simp at hp
          exact ⟨cs, by rw [hp]⟩
      rw [if_pos hp, hs4, List.tail_cons] at h
      by_cases htk : (skipWs s5).take 2 = ['=', '>']
      · rw [if_pos htk] at h
        simp only [Option.some.injEq] at h
        subst h
        obtain ⟨hw7, hs5⟩ := skipWs_decomp s5
        have hs6 : skipWs s5 = '=' :: '>' :: (skipWs s5).drop 2 := by
          conv_lhs => rw [← List.take_append_drop 2 (skipWs s5), htk]
          rfl
        refine ⟨true, s1.takeWhile isJsWs,
          ((skipWs s1).dropWhile isIdentChar).takeWhile isJsWs,
          s5.takeWhile isJsWs, (skipWs s5).drop 2,
          hw5, hw6, hw7, hidn, ?_⟩
        simp only [optPart_true, List.singleton_append]
        rw [← hs6, ← hs5, ← hs4, ← hs3, ← hs2, ← hs1]
      · rw [if_neg htk] at h
        simp at h
    · rw [if_neg hp] at h
      by_cases htk :
          (skipWs (skipWs ((skipWs s1).dropWhile isIdentChar))).take 2 =
            ['=', '>']
      · rw [if_pos htk] at h
        simp only [Option.some.injEq] at h
        subst h
        obtain ⟨hw7, hs5⟩ :=
          skipWs_decomp (skipWs ((skipWs s1).dropWhile isIdentChar))
        have hs6 : skipWs (skipWs ((skipWs s1).dropWhile isIdentChar)) =
            '=' :: '>' ::
              (skipWs (skipWs ((skipWs s1).dropWhile isIdentChar))).drop 2 := by
          conv_lhs =>
            rw [← List.take_append_drop 2
              (skipWs (skipWs ((skipWs s1).dropWhile isIdentChar))), htk]
          rfl
        refine ⟨false, s1.takeWhile isJsWs,
          ((skipWs s1).dropWhile isIdentChar).takeWhile isJsWs,
          (skipWs ((skipWs s1).dropWhile isIdentChar)).takeWhile isJsWs,
          (skipWs (skipWs ((skipWs s1).dropWhile isIdentChar))).drop 2,
          hw5, hw6, hw7, hidn, ?_⟩
        simp only [optPart_false, List.nil_append]
        rw [← hs6, ← hs5, ← hs3, ← hs2, ← hs1]
      · rw [if_neg htk] at h
        simp at h

theorem tailCap_sound {s n : List Char} (h : tailCap s = some n) :
    ∃ (pL pR : Bool) (w5 w6 w7 rest : List Char),
      WsRun w5 ∧ WsRun w6 ∧ WsRun w7 ∧ IdentRun n ∧
      s = optPart pL ['('] ++
        (w5 ++ (n ++ (w6 ++ (optPart pR [')'] ++ (w7 ++ '=' :: '>' :: rest))))) := by
  simp only [tailCap] at h
  by_cases hp : s.head? = some '('
  · rw [if_pos hp] at h
    obtain ⟨t0, rfl⟩ : ∃ t0, s = '(' :: t0 := by
      cases s with
      | nil => simp at hp
      | cons c cs =>
        simp at hp
        exact ⟨cs, by rw [hp]⟩
    rw [List.tail_cons] at h
    obtain ⟨pR, w5, w6, w7, rest, h5, h6, h7, hid, heq⟩ := capAfterParen_sound h
    refine ⟨true, pR, w5, w6, w7, rest, h5, h6, h7, hid, ?_⟩
    rw [optPart_true, List.singleton_append, ← heq]
  · rw [if_neg hp] at h
    obtain ⟨pR, w5, w6, w7, rest, h5, h6, h7, hid, heq⟩ := capAfterParen_sound h
    refine ⟨false, pR, w5, w6, w7, rest, h5, h6, h7, hid, ?_⟩
    rw [optPart_false, List.nil_append]
    exact heq

theorem tailCap_complete (pL pR : Bool) {w5 n w6 w7 rest : List Char}
    (h5 : WsRun w5) (hid : IdentRun n) (h6 : WsRun w6) (h7 : WsRun w7) :
    tailCap (optPart pL ['('] ++
        (w5 ++ (n ++ (w6 ++ (optPart pR [')'] ++ (w7 ++ '=' :: '>' :: rest)))))) =
      some n := by
  cases pL with
  | false =>
    simp only [optPart_false, List.nil_append, tailCap]
    rw [if_neg ?_]
    · exact capAfterParen_complete h5 hid h6 h7
    · intro hc
      cases w5 with
      | cons d ds =>
        simp at hc
        exact absurd (hc ▸ h5 d (by simp)) (by decide)
      | nil =>
        obtain ⟨c0, n', rfl⟩ : ∃ c0 n', n = c0 :: n' := by
          cases n with
          | nil => exact absurd rfl hid.1
          | cons c0 n' => exact ⟨c0, n', rfl⟩
        simp at hc
        exact absurd (hc ▸ hid.2 c0 (by simp)) (by decide)
  | true =>
    simp only [optPart_true, List.singleton_append, tailCap, List.head?_cons]
    simp only [if_true, List.tail_cons]
    exact capAfterParen_complete h5 hid h6 h7

theorem tailCap_complete_skip {pL pR : Bool} {w5 n w6 w7 rest : List Char}
    (h5 : WsRun w5) (hid : IdentRun n) (h6 : WsRun w6) (h7 : WsRun w7) :
    tailCap (skipWs (optPart pL ['('] ++
        (w5 ++ (n ++ (w6 ++ (optPart pR [')'] ++ (w7 ++ '=' :: '>' :: rest))))))) =
      some n := by
  cases pL with
  | true =>
    rw [optPart_true, List.singleton_append, skipWs_cons_not (by decide)]
    exact tailCap_complete true pR h5 hid h6 h7
  | false =>
    obtain ⟨c0, n', rfl⟩ : ∃ c0 n', n = c0 :: n' := by
      cases n with
      | nil => exact absurd rfl hid.1
      | cons c0 n' => exact ⟨c0, n', rfl⟩
    rw [optPart_false, List.nil_append, skipWs_ws_append h5,
      skipWs_not_head ?_]
    · exact tailCap_complete false pR WsRun_nil hid h6 h7
    · intro c hc
      simp at hc
      subst hc
      exact ident_not_ws (hid.2 c0 (by simp))

/-- The four alternatives of `tryAlt`, reduced. -/
theorem tryAlt_tt (s : List Char) :
    tryAlt true true s = (grpWs "async".data s).bind fun s1 =>
      (grpWs "function".data s1).bind fun s2 => tailCap s2 := rfl

theorem tryAlt_tf (s : List Char) :
    tryAlt true false s = (grpWs "async".data s).bind fun s1 => tailCap s1 := rfl

theorem tryAlt_ft (s : List Char) :
    tryAlt false true s = (grpWs "function".data s).bind fun s2 =>
      tailCap s2 := rfl

theorem tryAlt_ff (s : List Char) : tryAlt false false s = tailCap s := rfl

theorem tryAlt_sound {a f : Bool} {s n : List Char}
    (h : tryAlt a f s = some n) : RegexDecomp s n := by
  cases a <;> cases f
  · rw [tryAlt_ff] at h
    obtain ⟨pL, pR, w5, w6, w7, rest, h5, h6, h7, hid, heq⟩ := tailCap_sound h
    exact ⟨false, false, pL, pR, [], [], [], [], w5, w6, w7, rest,
      WsRun_nil, WsRun_nil, WsRun_nil, WsRun_nil, h5, h6, h7, hid,
      by simp [optPart_false, heq]⟩
  · rw [tryAlt_ft] at h
    simp only [Option.bind_eq_some] at h
    obtain ⟨s2, hg, ht⟩ := h
    obtain ⟨w3, w4, h3, h4, heqg⟩ := grpWs_sound hg
    obtain ⟨pL, pR, w5, w6, w7, rest, h5, h6, h7, hid, heq⟩ := tailCap_sound ht
    refine ⟨false, true, pL, pR, [], [], w3, w4, w5, w6, w7, rest,
      WsRun_nil, WsRun_nil, h3, h4, h5, h6, h7, hid, ?_⟩
    rw [heqg, heq]
    simp [optPart_false, optPart_true, List.append_assoc]
  · rw [tryAlt_tf] at h
    simp only [Option.bind_eq_some] at h
    obtain ⟨s1, hg, ht⟩ := h
    obtain ⟨w1, w2, h1, h2, heqg⟩ := grpWs_sound hg
    obtain ⟨pL, pR, w5, w6, w7, rest, h5, h6, h7, hid, heq⟩ := tailCap_sound ht
    refine ⟨true, false, pL, pR, w1, w2, [], [], w5, w6, w7, rest,
      h1, h2, WsRun_nil, WsRun_nil, h5, h6, h7, hid, ?_⟩
    rw [heqg, heq]
    simp [optPart_false, optPart_true, List.append_assoc]
  · rw [tryAlt_tt] at h
    simp only [Option.bind_eq_some] at h
    obtain ⟨s1, hg1, h⟩ := h
    obtain ⟨s2, hg2, ht⟩ := h
    obtain ⟨w1, w2, h1, h2, heq1⟩ := grpWs_sound hg1
    obtain ⟨w3, w4, h3, h4, heq2⟩ := grpWs_sound hg2
    obtain ⟨pL, pR, w5, w6, w7, rest, h5, h6, h7, hid, heq⟩ := tailCap_sound ht
    refine ⟨true, true, pL, pR, w1, w2, w3, w4, w5, w6, w7, rest,
      h1, h2, h3, h4, h5, h6, h7, hid, ?_⟩
    rw [heq1, heq2, heq]
    simp [optPart_true, List.append_assoc]

theorem tryAlt_complete {a f pL pR : Bool}
    {w1 w2 w3 w4 w5 n w6 w7 rest : List Char}
    (h1 : WsRun w1) (h2 : WsRun w2) (h3 : WsRun w3) (h4 : WsRun w4)
    (h5 : WsRun w5) (h6 : WsRun w6) (h7 : WsRun w7) (hid : IdentRun n) :
    tryAlt a f
      (optPart a (w1 ++ "async".data ++ w2) ++
        (optPart f (w3 ++ "function".data ++ w4) ++
          (optPart pL ['('] ++
            (w5 ++ (n ++ (w6 ++ (optPart pR [')'] ++
              (w7 ++ '=' :: '>' :: rest)))))))) = some n := by
  set T := optPart pL ['('] ++
    (w5 ++ (n ++ (w6 ++ (optPart pR [')'] ++ (w7 ++ '=' :: '>' :: rest)))))
    with hT
  cases a <;> cases f
  · simp only [optPart_false, List.nil_append]
    rw [tryAlt_ff]
    exact tailCap_complete pL pR h5 hid h6 h7
  · simp only [optPart_false, optPart_true, List.nil_append]
    rw [tryAlt_ft, List.append_assoc, List.append_assoc]
    rw [grpWs_complete "function".data 'f' "unction".data rfl (by decide) h3 h4]
    exact tailCap_complete_skip h5 hid h6 h7
  · simp only [optPart_false, optPart_true, List.nil_append]
    rw [tryAlt_tf, List.append_assoc, List.append_assoc]
    rw [grpWs_complete "async".data 'a' "sync".data rfl (by decide) h1 h2]
    exact tailCap_complete_skip h5 hid h6 h7
  · simp only [optPart_true]
    rw [tryAlt_tt, List.append_assoc, List.append_assoc, List.append_assoc,
      List.append_assoc]
    rw [grpWs_complete "async".data 'a' "sync".data rfl (by decide) h1 h2]
    rw [Option.some_bind]
    have hsk : skipWs (w3 ++ ("function".data ++ (w4 ++ T))) =
        "function".data ++ (w4 ++ T) := by
      rw [skipWs_ws_append h3]
      exact skipWs_cons_not (by decide)
    have hg2 : grpWs "function".data ("function".data ++ (w4 ++ T)) =
        some (skipWs T) := by
      exact grpWs_complete "function".data 'f' "unction".data
        rfl (by decide) WsRun_nil h4
    rw [hsk, hg2, Option.some_bind]
    exact tailCap_complete_skip h5 hid h6 h7

theorem orElse_eq_some {α : Type} {x : Option α} {f : Unit → Option α} {v : α}
    (h : x.orElse f = some v) : x = some v ∨ (x = none ∧ f () = some v) := by
  cases x with
  | some a => simp [Option.orElse] at h; simp [h]
  | none => simp [Option.orElse] at h; simp [h]

theorem orElse_isSome {α : Type} {x : Option α} {f : Unit → Option α}
    (h : x.isSome = true ∨ (f ()).isSome = true) :
    (x.orElse f).isSome = true := by
  cases x with
  | some a => simp [Option.orElse]
  | none =>
    rcases h with h | h
    · simp at h
    · simpa [Option.orElse] using h

/-- Soundness: a name returned by the matcher really is the capture of a
decomposition of the code along the regex. -/
theorem argMatch_sound {code : String} {n : List Char}
    (h : argMatch code = some n) : RegexDecomp code.data n := by
  unfold argMatch at h
  rcases orElse_eq_some h with h1 | ⟨_, h⟩
  · exact tryAlt_sound h1
  rcases orElse_eq_some h with h2 | ⟨_, h⟩
  · exact tryAlt_sound h2
  rcases orElse_eq_some h with h3 | ⟨_, h4⟩
  · exact tryAlt_sound h3
  · exact tryAlt_sound h4

/-- Completeness: if the code matches the regex at all, the matcher finds
some capture (the backtracking order decides which one). -/
theorem argMatch_complete {code : String} {n : List Char}
    (hd : RegexDecomp code.data n) : (argMatch code).isSome = true := by
  obtain ⟨a, f, pL, pR, w1, w2, w3, w4, w5, w6, w7, rest,
    h1, h2, h3, h4, h5, h6, h7, hid, heq⟩ := hd
  have hta : tryAlt a f code.data = some n := by
    rw [heq]
    exact tryAlt_complete h1 h2 h3 h4 h5 h6 h7 hid
  unfold argMatch
  cases a <;> cases f
  · exact orElse_isSome (Or.inr (orElse_isSome (Or.inr (orElse_isSome
      (Or.inr (by simp [hta]))))))
  · exact orElse_isSome (Or.inr (orElse_isSome (Or.inr (orElse_isSome
      (Or.inl (by simp [hta]))))))
  · exact orElse_isSome (Or.inr (orElse_isSome (Or.inl (by simp [hta]))))
  · exact orElse_isSome (Or.inl (by simp [hta]))

/-- A library surface on which no code string compiles. -/
def surfNoCompile : Surface := ⟨fun _ => true, fun _ _ => true, fun _ => false⟩

/-- C9: the function branch: (i) when `new Function` fails, the node fails
with `FunctionCompileError` carrying the offending source text; (ii) when it
succeeds, the compiled callable's formal parameter name is `inferArgName`;
(iii) every name the matcher infers is the capture of a decomposition of the
code along the source regex (the "leading parameter pattern": optional async
and/or function marker, optionally parenthesized simple name, arrow), and the
inferred name is exactly that capture; (iv) whenever the code matches the
pattern at all the matcher succeeds; (v) hence when no such pattern matches,
the name defaults to the fixed fallback `"data"`. -/
theorem function_spec_compile_and_argname_inference :
    (∀ (S : Surface) (root : Root) (fuel : Nat) (code : String) (c : Cache),
      S.compileOk code = false →
      parseNodeF S root (fuel + 1) (.func code) c =
        some (.error (.functionCompileError code))) ∧
    (∀ (S : Surface) (root : Root) (fuel : Nat) (code : String) (c : Cache),
      S.compileOk code = true →
      parseNodeF S root (fuel + 1) (.func code) c =
        some (.ok (.vfunc (inferArgName code) code, c))) ∧
    (∀ (code : String) (n : List Char), argMatch code = some n →
      RegexDecomp code.data n ∧ inferArgName code = n.asString) ∧
    (∀ (code : String) (n : List Char), RegexDecomp code.data n →
      (argMatch code).isSome = true) ∧
    (∀ code : String, (∀ n, ¬RegexDecomp code.data n) →
      inferArgName code = "data") := by
  refine ⟨fun S root fuel code c h => ?_, fun S root fuel code c h => ?_,
    fun code n h => ⟨argMatch_sound h, ?_⟩,
    fun code n h => argMatch_complete h,
    fun code hno => ?_⟩
  · simp [parseNodeF, h]
  · simp [parseNodeF, h]
  · simp [inferArgName, h]
  · cases hm : argMatch code with
    | none => simp [inferArgName, hm]
    | some n => exact absurd (argMatch_sound hm) (hno n)

/-- Witness for C9 at concrete inputs: a failed compile carries the source; a
successful compile on the spec's transform example infers `val`; `x => x`
both matches the pattern and infers `x`; an async parenthesized form is
matched; a classical function declaration (no arrow) matches no pattern and
falls back to `data`. -/
theorem function_spec_compile_and_argname_inference_witness :
    parseNodeF surfNoCompile rootNil 1 (.func "val => val") [] =
      some (.error (.functionCompileError "val => val")) ∧
    parseNodeF surfAll rootNil 1 (.func "val => val.toUpperCase()") [] =
      some (.ok (.vfunc "val" "val => val.toUpperCase()", [])) ∧
    (RegexDecomp "x => x".data ['x'] ∧ inferArgName "x => x" = "x") ∧
    (argMatch "async (data) => data").isSome = true ∧
    inferArgName "function f(x){ return x }" = "data" := by
  refine ⟨?_, ?_, ?_, ?_, ?_⟩
  · exact function_spec_compile_and_argname_inference.1 surfNoCompile rootNil 0
      "val => val" [] rfl
  · have h := function_spec_compile_and_argname_inference.2.1 surfAll rootNil 0
      "val => val.toUpperCase()" [] rfl
    rw [show inferArgName "val => val.toUpperCase()" = "val" from rfl] at h
    exact h
  · have h := function_spec_compile_and_argname_inference.2.2.1 "x => x"
      ['x'] rfl
    exact ⟨h.1, h.2.trans rfl⟩
  · exact function_spec_compile_and_argname_inference.2.2.2.1
      "async (data) => data" ['d', 'a', 't', 'a']
      ⟨true, false, true, true, [], [' '], [], [], [], [], [' '],
        " data".data,
        WsRun_nil, by unfold WsRun; decide, WsRun_nil, WsRun_nil, WsRun_nil,
        WsRun_nil, by unfold WsRun; decide,
        ⟨by decide, by decide⟩, by decide⟩
  · refine function_spec_compile_and_argname_inference.2.2.2.2
      "function f(x){ return x }" fun n hd => ?_
    have h := function_spec_compile_and_argname_inference.2.2.2.1
      "function f(x){ return x }" n hd
    rw [show argMatch "function f(x){ return x }" = none from rfl] at h
    simp at h

end JsonZod
